import Mathlib

/-!
Verification development for a concurrent red-black tree implementation
(`rbtree.cpp`).  The tree engine (search, insert with `fix_insert`, delete
with `fix_double_black`), the pre-order serializer, the bulk loader, and the
readers-writer monitor are shallowly embedded below.  The pointer-based
rebalancing walks of the C++ code are rendered with an explicit zipper
(a focus subtree plus the list of crumbs up to the root), which captures the
parent-pointer navigation faithfully: a crumb stores on which side the focus
hangs, the parent's color and key, and the sibling subtree.
-/

set_option maxHeartbeats 1000000
set_option linter.unusedVariables false

namespace RBT

/-- Node colors. In the C++ code `enum Color { red, black }` stored as `bool`. -/
inductive Color where
  | red : Color
  | black : Color
deriving DecidableEq, Repr

/-- Binary tree with colored nodes and integer keys.  `nil` stands for the
`NULL` child pointer of the C++ `node` struct; parent pointers are not stored
(the zipper below plays their role during the rebalancing walks). -/
inductive Tree where
  | nil : Tree
  | node (c : Color) (l : Tree) (k : Int) (r : Tree) : Tree
deriving DecidableEq, Repr

open Color Tree

/-- Color of the root; the absent node (`NULL`) is treated as black,
matching the red-black convention used throughout the C++ code. -/
def rootColor : Tree → Color
  | nil => black
  | node c _ _ _ => c

/-- Is the root of this subtree a red node?  (`x != NULL && x->color == red`). -/
def redRoot : Tree → Bool
  | node red _ _ _ => true
  | _ => false

/-- Key at the root (0 for the empty tree; only used on non-empty trees). -/
def rootKey : Tree → Int
  | nil => 0
  | node _ _ k _ => k

/-- Repaint the root black (used for `root->color = black`). -/
def paintBlack : Tree → Tree
  | nil => nil
  | node _ l k r => node black l k r

/-- Repaint the root red (`sibling(n)->color = red`, guarded by NULL check). -/
def paintRed : Tree → Tree
  | nil => nil
  | node _ l k r => node red l k r

/-- Replace the root key, keeping color and children (used for the key swap
in the two-children case of deletion). -/
def setKey : Tree → Int → Tree
  | nil, _ => nil
  | node c l _ r, k => node c l k r

/-- Number of nodes. -/
def tsize : Tree → Nat
  | nil => 0
  | node _ l _ r => tsize l + tsize r + 1

/-- Height: maximum number of nodes on a root-to-leaf path. -/
def height : Tree → Nat
  | nil => 0
  | node _ l _ r => max (height l) (height r) + 1

/-- In-order traversal of the keys (`RBTree::in_order_helper`). -/
def inorder : Tree → List Int
  | nil => []
  | node _ l k r => inorder l ++ k :: inorder r

/-- Key membership. -/
def keys (t : Tree) : List Int := inorder t

/-- Invariant 2 of the spec: the root is black (or the tree is empty). -/
def inv2RootBlack (t : Tree) : Prop := rootColor t = black

/-- Invariant 3 of the spec: no red node has a red child. -/
def noRedRed : Tree → Bool
  | nil => true
  | node c l _ r =>
    (c = black || (!redRoot l && !redRoot r)) && noRedRed l && noRedRed r

/-- Black height of a tree: `some n` if every root-to-sentinel path contains
the same number `n` of black nodes, `none` otherwise (invariant 4). -/
def bh : Tree → Option Nat
  | nil => some 0
  | node c l _ r =>
    (bh l).bind (fun a => (bh r).bind (fun b =>
      if a = b then some (a + (if c = black then 1 else 0)) else none))

/-- Invariant 5 of the spec: binary-search-tree ordering, expressed as strict
sortedness of the in-order key sequence. -/
def inv5BST (t : Tree) : Prop := List.Sorted (· < ·) (inorder t)

/-- Red-black validity: invariants 2-5 of the spec.  (Invariant 1 — every
node is red or black and the empty child is treated as black — holds by
construction of `Tree` and `rootColor`.) -/
def ValidRB (t : Tree) : Prop :=
  inv2RootBlack t ∧ noRedRed t = true ∧ (bh t).isSome ∧ inv5BST t

instance : DecidablePred inv5BST := fun t => by
  unfold inv5BST
  exact List.decidableSorted _

instance : DecidablePred ValidRB := fun t => by
  unfold ValidRB inv2RootBlack
  infer_instance

/-- The balancing invariant as one inductive relation (root color and black
height), in the style of the Batteries red-black tree development: it bundles
invariants 3 and 4. -/
inductive Balanced : Tree → Color → Nat → Prop where
  | nil : Balanced nil black 0
  | red {l r : Tree} {k : Int} {n : Nat} :
      Balanced l black n → Balanced r black n → Balanced (node red l k r) red n
  | black {l r : Tree} {k : Int} {n : Nat} {c₁ c₂ : Color} :
      Balanced l c₁ n → Balanced r c₂ n → Balanced (node black l k r) black (n + 1)

/-- Which side of its parent a node hangs from. -/
inductive Dir where
  | L : Dir
  | R : Dir
deriving DecidableEq, Repr

/-- One step of the path from a node to the root: the side the focus hangs
from (`d`), the parent's color (`c`) and key (`k`), and the focus's sibling
subtree (`sib`).  This is the information the C++ code reaches through
`node->parent`, `sibling(node)` and `is_on_left(node)`. -/
structure Crumb where
  d : Dir
  c : Color
  k : Int
  sib : Tree
deriving DecidableEq, Repr

/-- A path from a focused node up to the root (innermost crumb first). -/
def Path := List Crumb

/-- Rebuild the parent node from a crumb and the focused subtree. -/
def assemble (c : Crumb) (t : Tree) : Tree :=
  match c.d with
  | Dir.L => node c.c t c.k c.sib
  | Dir.R => node c.c c.sib c.k t

/-- Rebuild the whole tree from a focus and its path. -/
def plug : Tree → Path → Tree
  | t, [] => t
  | t, c :: p => plug (assemble c t) p

/-- BST search (`RBTree::search_helper`): returns the subtree rooted at the
node with the given key, or `none` (`NULL`). -/
def search_helper : Tree → Int → Option Tree
  | nil, _ => none
  | node c l k r, key =>
    if key = k then some (node c l k r)
    else if key < k then search_helper l key
    else search_helper r key

/-- `RBTree::search_tree`. -/
def search_tree (t : Tree) (key : Int) : Option Tree := search_helper t key

/-- BST insertion of a fresh red node with key `k` (`RBTree::insert_helper`
applied to `new node(key)`; duplicate keys leave the tree unchanged). -/
def insert_helper : Tree → Int → Tree
  | nil, k => node red nil k nil
  | node c l key r, k =>
    if k < key then node c (insert_helper l k) key r
    else if k > key then node c l key (insert_helper r k)
    else node c l key r

/-- The path from the root down to the `NULL` position where a fresh key `k`
is linked by `insert_helper` (the zipper form of the chain of parent
pointers of the newly inserted node). -/
def descendPath : Tree → Int → Path → Path
  | nil, _, acc => acc
  | node c l key r, k, acc =>
    if k < key then descendPath l k (⟨Dir.L, c, key, r⟩ :: acc)
    else if k > key then descendPath r k (⟨Dir.R, c, key, l⟩ :: acc)
    else acc

/-- `RBTree::fix_insert`, in zipper form.  The first argument is the current
`node` of the while loop (always a subtree of the evolving tree), the second
its path.  The loop runs while the node is not the root, is red, and its
parent is red; `none` models the null-pointer dereference the C++ code would
perform if a red node's red parent were the root (`grand_parent` would be
`NULL` and `grand_parent->left` would crash) — unreachable from valid trees.
On loop exit the root is unconditionally repainted black. -/
def fixInsert : Tree → Path → Option Tree
  | t, [] => some (paintBlack t)
  | nil, p => some (paintBlack (plug nil p))
  | node black l k r, p => some (paintBlack (plug (node black l k r) p))
  | node red tl tk tr, c :: p =>
    if c.c = red then
      match p with
      | [] => none
      | g :: p2 =>
        match g.d with
        | Dir.L =>
          -- parent is the grandparent's left child; uncle is g.sib
          if redRoot g.sib then
            -- color flip: parent and uncle black, grandparent red; continue
            fixInsert (node red (paintBlack (assemble c (node red tl tk tr))) g.k
              (paintBlack g.sib)) p2
          else
            match c.d with
            | Dir.L =>
              -- left-left: rotate_right(grand_parent), parent black, gp red
              some (paintBlack (plug
                (node black (node red tl tk tr) c.k (node red c.sib g.k g.sib)) p2))
            | Dir.R =>
              -- left-right: rotate_left(parent) then rotate_right(grand_parent)
              some (paintBlack (plug
                (node black (node red c.sib c.k tl) tk (node red tr g.k g.sib)) p2))
        | Dir.R =>
          -- parent is the grandparent's right child; uncle is g.sib
          if redRoot g.sib then
            fixInsert (node red (paintBlack g.sib) g.k
              (paintBlack (assemble c (node red tl tk tr)))) p2
          else
            match c.d with
            | Dir.R =>
              -- right-right: rotate_left(grand_parent), parent black, gp red
              some (paintBlack (plug
                (node black (node red g.sib g.k c.sib) c.k (node red tl tk tr)) p2))
            | Dir.L =>
              -- right-left: rotate_right(parent) then rotate_left(grand_parent)
              some (paintBlack (plug
                (node black (node red g.sib g.k tl) tk (node red tr c.k c.sib)) p2))
    else some (paintBlack (plug (node red tl tk tr) (c :: p)))
termination_by _ p => p.length
decreasing_by all_goals simp [List.length_cons]; omega

/-- `RBTree::insert_node`: inserts only when the key is not found, then runs
the insert fix-up starting from the newly created red node. -/
def insert_node (t : Tree) (k : Int) : Option Tree :=
  if (search_tree t k).isSome then some t
  else fixInsert (node red nil k nil) (descendPath t k [])

/-- Termination measure for `fixDB`: the red-sibling case trades one crumb's
sibling node for two crumbs carrying its children, so twice the total size of
the sibling subtrees plus the path length decreases at every recursive call. -/
def pathWeight (p : Path) : Nat :=
  2 * (List.map (fun c => tsize (Crumb.sib c)) p).sum + List.length p

/-- `RBTree::fix_double_black`, in zipper form.  The C++ function never reads
or modifies the double-black node itself — it only navigates `parent` and
`sibling` links and restructures the surrounding tree — so it is a function
from the node's path to its new path: plugging any subtree into the result
reproduces the repaired tree with that subtree at the (re-positioned) focus.
Case order follows the C++ exactly: node is root; sibling `NULL`; sibling
red (rotate toward the sibling, retry on the same node); black sibling with
a red child (four terminal rotation cases, testing `sib->left` first); black
sibling without red children (recolor sibling red, then recurse on the
parent if it is black, else paint it black and stop). -/
def fixDB : Path → Path
  | [] => []
  | c :: p =>
    match hs : c.sib with
    | nil => c :: fixDB p
    | node sc sl sk sr =>
      if sc = red then
        match c.d with
        | Dir.R =>
          -- sibling on the left: parent red, sibling black, rotate_right(parent)
          fixDB (⟨Dir.R, red, c.k, sr⟩ :: ⟨Dir.R, black, sk, sl⟩ :: p)
        | Dir.L =>
          -- sibling on the right: rotate_left(parent)
          fixDB (⟨Dir.L, red, c.k, sl⟩ :: ⟨Dir.L, black, sk, sr⟩ :: p)
      else
        match sl with
        | node red sll slk slr =>
          match c.d with
          | Dir.R =>
            -- left-left: sib->left takes sib's color, sib takes parent's,
            -- rotate_right(parent), parent black
            ⟨Dir.R, black, c.k, sr⟩ :: ⟨Dir.R, c.c, sk, node black sll slk slr⟩ :: p
          | Dir.L =>
            -- right-left: sib->left takes parent's color, rotate_right(sib),
            -- rotate_left(parent), parent black
            ⟨Dir.L, black, c.k, sll⟩ :: ⟨Dir.L, c.c, slk, node black slr sk sr⟩ :: p
        | _ =>
          match sr with
          | node red srl srk srr =>
            match c.d with
            | Dir.R =>
              -- left-right: sib->right takes parent's color, rotate_left(sib),
              -- rotate_right(parent), parent black
              ⟨Dir.R, black, c.k, srr⟩ :: ⟨Dir.R, c.c, srk, node black sl sk srl⟩ :: p
            | Dir.L =>
              -- right-right: sib->right takes sib's color, sib takes parent's,
              -- rotate_left(parent), parent black
              ⟨Dir.L, black, c.k, sl⟩ :: ⟨Dir.L, c.c, sk, node black srl srk srr⟩ :: p
          | _ =>
            -- no red child: recolor sibling red; if parent black, double-black
            -- moves to the parent, else parent becomes black and we stop
            if c.c = black then
              ⟨c.d, black, c.k, node red sl sk sr⟩ :: fixDB p
            else
              ⟨c.d, black, c.k, node red sl sk sr⟩ :: p
termination_by p => pathWeight p
decreasing_by
  all_goals simp_all [pathWeight, tsize, List.map_cons, List.sum_cons]
  all_goals omega

/-- Key of the leftmost node (`RBTree::min`; only used on non-empty trees). -/
def minKey : Tree → Int
  | nil => 0
  | node _ nil k _ => k
  | node _ (node cl ll kl rl) _ _ => minKey (node cl ll kl rl)

/-- Zipper descent to the leftmost node of a subtree, extending the given
path: returns the leftmost node (which has no left child) and its path. -/
def minZip : Tree → Path → Tree × Path
  | nil, p => (nil, p)
  | node c nil k r, p => (node c nil k r, p)
  | node c (node cl ll kl rl) k r, p =>
    minZip (node cl ll kl rl) (⟨Dir.L, c, k, r⟩ :: p)

/-- `RBTree::delete_helper`, in zipper form.  The focus is the node `n` to be
deleted, the path its chain of parent pointers.  `replace(n)` is the BST
successor for two children, the single child for one, `NULL` for none, and
`bb` is the double-black flag `(m == NULL || m->color == black) && (n->color
== black)`.  The leaf case runs `fix_double_black` *before* unlinking `n`
(plugging `nil` into the repaired path performs the unlink); the one-child
case splices the child `m` into `n`'s place and repairs or repaints there;
the two-children case swaps keys with the successor and recurses on the
successor's position. -/
def delete_helper : Tree → Path → Tree
  | nil, p => plug nil p
  | node cn ln kn rn, p =>
    if ln = nil ∧ rn = nil then
      -- m == NULL: n is a leaf
      match p with
      | [] => nil
      | c :: p2 =>
        if cn = black then
          plug nil (fixDB (c :: p2))
        else
          plug nil (⟨c.d, c.c, c.k, paintRed c.sib⟩ :: p2)
    else if ln = nil ∨ rn = nil then
      -- exactly one child m
      match p with
      | [] =>
        -- n is the root: copy m's key into n and drop both children
        node cn nil (rootKey (if ln = nil then rn else ln)) nil
      | c :: p2 =>
        if rootColor (if ln = nil then rn else ln) = black ∧ cn = black then
          plug (if ln = nil then rn else ln) (fixDB (c :: p2))
        else
          plug (paintBlack (if ln = nil then rn else ln)) (c :: p2)
    else
      -- two children: swap keys with the successor and delete there
      delete_helper (setKey (minZip rn (⟨Dir.R, cn, minKey rn, ln⟩ :: p)).1 kn)
        (minZip rn (⟨Dir.R, cn, minKey rn, ln⟩ :: p)).2
termination_by t _ => tsize t
decreasing_by
  have hm : ∀ (u : Tree) (q : Path), tsize (minZip u q).1 ≤ tsize u := by
    intro u
    induction u with
    | nil => intro q; simp [minZip]
    | node c2 l2 k2 r2 ihl ihr =>
      intro q
      cases l2 with
      | nil => simp [minZip]
      | node cl ll kl rl =>
        calc tsize (minZip (node c2 (node cl ll kl rl) k2 r2) q).1
            = tsize (minZip (node cl ll kl rl) (⟨Dir.L, c2, k2, r2⟩ :: q)).1 := rfl
          _ ≤ tsize (node cl ll kl rl) := ihl _
          _ ≤ tsize (node c2 (node cl ll kl rl) k2 r2) := by simp [tsize]; omega
  have h1 : tsize (setKey (minZip rn (⟨Dir.R, cn, minKey rn, ln⟩ :: p)).1 kn)
      = tsize (minZip rn (⟨Dir.R, cn, minKey rn, ln⟩ :: p)).1 := by
    generalize (minZip rn (⟨Dir.R, cn, minKey rn, ln⟩ :: p)).1 = u
    cases u <;> simp [setKey, tsize]
  have h2 := hm rn (⟨Dir.R, cn, minKey rn, ln⟩ :: p)
  simp only [tsize]
  omega

/-- Zipper search: like `search_helper` but also returns the path of the
found node (its chain of parent pointers), as needed by `delete_helper`. -/
def findZ : Tree → Int → Path → Option (Tree × Path)
  | nil, _, _ => none
  | node c l k r, key, p =>
    if key = k then some (node c l k r, p)
    else if key < k then findZ l key (⟨Dir.L, c, k, r⟩ :: p)
    else findZ r key (⟨Dir.R, c, k, l⟩ :: p)

/-- `RBTree::delete_node`.  The boolean records whether the error message
for a missing key was printed (`Error: couldn't find ...`): the empty tree
returns silently, a missing key logs the failure and leaves the tree
unchanged, otherwise `delete_helper` runs on the found node. -/
def delete_node : Tree → Int → Tree × Bool
  | nil, _ => (nil, false)
  | node c l k r, key =>
    match findZ (node c l k r) key [] with
    | none => (node c l k r, true)
    | some (n, p) => (delete_helper n p, false)

/-- The tree after `delete_node` (ignoring the error flag). -/
def deleteTree (t : Tree) (key : Int) : Tree := (delete_node t key).1

/-- Color letter used by the serializer (`node->color ? 'b' : 'r'`). -/
def colorChar : Color → Char
  | black => 'b'
  | red => 'r'

/-- `RBTree::prefix_order_helper` with the key of the stored `last` node as a
parameter: emit `<key><color-letter>,`, then `f,` if the left child is
absent, then `f,` if the right child is absent and the node's key differs
from `last->key`, then recurse left, then right.  The C++ appends to a
member string; string concatenation is associative, so accumulating by
return value is equivalent. -/
def prefix_order_helper : Tree → Int → String
  | nil, _ => ""
  | node c l k r, lastKey =>
    (toString k).push (colorChar c) ++ "," ++
    (if l = nil then "f," else "") ++
    (if r = nil ∧ k ≠ lastKey then "f," else "") ++
    prefix_order_helper l lastKey ++ prefix_order_helper r lastKey

/-- Tokens of the serialized form: a keyed token or the absent-child marker. -/
inductive Tok where
  | kc (k : Int) (c : Color) : Tok
  | leafMark : Tok
deriving DecidableEq, Repr

/-- Rendering of one token, each followed by its separating comma. -/
def renderTok : Tok → String
  | Tok.kc k c => (toString k).push (colorChar c) ++ ","
  | Tok.leafMark => "f,"

/-- Rendering of a token sequence. -/
def renderToks : List Tok → String
  | [] => ""
  | t :: ts => renderTok t ++ renderToks ts

/-- Token sequence produced by the implementation: a node's absent-child
markers (left then right, the right one suppressed for the node whose key
equals the last bulk-load key) are emitted immediately after the node's own
token, before the tokens of the left subtree. -/
def codeTokens : Tree → Int → List Tok
  | nil, _ => []
  | node c l k r, lastKey =>
    Tok.kc k c ::
    ((if l = nil then [Tok.leafMark] else []) ++
     (if r = nil ∧ k ≠ lastKey then [Tok.leafMark] else []) ++
     codeTokens l lastKey ++ codeTokens r lastKey)

/-- Token sequence in the claimed format: each absent child's marker appears
at the child's own pre-order position (the left marker between the parent
and the right subtree, the right marker after the entire left subtree), with
the same suppression of the right marker of the last bulk-load key. -/
def specTokens : Tree → Int → List Tok
  | nil, _ => []
  | node c l k r, lastKey =>
    Tok.kc k c ::
    ((if l = nil then [Tok.leafMark] else specTokens l lastKey) ++
     (if r = nil then (if k ≠ lastKey then [Tok.leafMark] else [])
      else specTokens r lastKey))

/-- Number of absent children (`NULL` child pointers) of a non-empty tree. -/
def nilChildren : Tree → Nat
  | nil => 0
  | node _ l _ r =>
    (if l = nil then 1 else 0) + (if r = nil then 1 else 0) +
    nilChildren l + nilChildren r

/-- Does the tree contain a node with the given key whose right child is
absent (the only situation in which the serializer suppresses a marker)? -/
def hasKeyNoRight : Tree → Int → Bool
  | nil, _ => false
  | node _ l k r, lastKey =>
    (decide (k = lastKey) && decide (r = nil)) || hasKeyNoRight l lastKey ||
    hasKeyNoRight r lastKey

/-- The keyed tokens of a tree in pre-order (parent, then the entire left
subtree, then the entire right subtree). -/
def preorderKC : Tree → List Tok
  | nil => []
  | node c l k r => Tok.kc k c :: (preorderKC l ++ preorderKC r)

/-- Is this a keyed token? -/
def isKC : Tok → Bool
  | Tok.kc _ _ => true
  | Tok.leafMark => false

/-- Number of absent-child markers in a token sequence. -/
def countMarks : List Tok → Nat
  | [] => 0
  | Tok.kc _ _ :: ts => countMarks ts
  | Tok.leafMark :: ts => 1 + countMarks ts

/-- Number of nodes whose right-child marker the serializer suppresses
(nodes with an absent right child whose key equals the last bulk-load key). -/
def suppressCount : Tree → Int → Nat
  | nil, _ => 0
  | node _ l k r, lastKey =>
    (if r = nil ∧ k = lastKey then 1 else 0) +
    suppressCount l lastKey + suppressCount r lastKey

/-- A `(key, color)` record parsed from the input file (`tmp_node`); the
absent-child marker `f` is stored with key `-1`. -/
structure TmpNode where
  k : Int
  c : Color
deriving DecidableEq, Repr

/-- The value of the `last` member after `RBTree::build_tree`: the loop
starts at the second vector entry and assigns `last = curr` for every entry
whose key is not `-1`; with no such entry (a single-entry bulk load, or no
bulk load at all) the pointer is never assigned. -/
def build_last (l : List TmpNode) : Option TmpNode :=
  (List.filter (fun e => e.k ≠ -1) (List.drop 1 l)).getLast?

/-- `RBTree::build_tree_helper`: BST descent honoring the supplied colors
(keys larger than the current node go right, all others left). -/
def build_tree_helper : Tree → TmpNode → Tree
  | nil, e => node e.c nil e.k nil
  | node c l k r, e =>
    if e.k > k then node c l k (build_tree_helper r e)
    else node c (build_tree_helper l e) k r

/-- `RBTree::build_tree`: the first entry becomes the root, every later
entry with key ≠ -1 is inserted by BST descent. -/
def build_tree : List TmpNode → Tree
  | [] => nil
  | e :: rest =>
    List.foldl (fun t e2 => if e2.k ≠ -1 then build_tree_helper t e2 else t)
      (build_tree_helper nil e) rest

/-- `prefix_order`/`get_prefix_tree`, with the (possibly unassigned) `last`
pointer made explicit: the helper dereferences `last` as soon as it reaches
a node without a right child, and every non-empty tree has one, so the
result is undefined (`none`) exactly when the tree is non-empty and `last`
was never assigned.  The empty tree never evaluates the suppression test
and serializes to the empty string. -/
def get_prefix_tree : Tree → Option TmpNode → Option String
  | nil, _ => some ""
  | node c l k r, lastv =>
    match lastv with
    | none => none
    | some e => some (prefix_order_helper (node c l k r) e.k)

/-- State of the `rw_monitor` plus the positions of the client threads.
The four integer counters are the monitor's fields; the `Nat` fields count
threads at each program point: blocked in `pthread_cond_wait` on `can_read`
(`rWaiting`) or `can_write` (`wWaiting`), signaled but not yet re-holding
the mutex (`rReady`/`wReady`), admitted readers that have not yet executed
the trailing `pthread_cond_broadcast(&can_read)` of `begin_read`
(`pendingBcast`), readers inside their search (`reading`), and writers
inside their mutation (`writing`). -/
structure MonState where
  num_readers : Int
  num_writers : Int
  readers_wait : Int
  writers_wait : Int
  rWaiting : Nat
  rReady : Nat
  pendingBcast : Nat
  reading : Nat
  wWaiting : Nat
  wReady : Nat
  writing : Nat
deriving DecidableEq, Repr

/-- All-zero initial monitor state (the `rw_monitor` constructor). -/
def monInit : MonState := ⟨0, 0, 0, 0, 0, 0, 0, 0, 0, 0, 0⟩

/-- Small-step semantics of the monitor under POSIX (Mesa-style) condition
variables: a signaled thread must re-acquire the mutex before resuming, and
other threads may run in between; since both `begin_read` and `begin_write`
use `if` rather than `while` around `pthread_cond_wait`, a resuming thread
does not re-check its guard.  Each step is one mutex-protected region (or
the broadcast that `begin_read` performs after unlocking).  Fresh reader and
writer threads may arrive at any time. -/
inductive MesaStep : MonState → MonState → Prop where
  | beginRead_pass (s : MonState) :
      ¬(s.num_writers = 1 ∨ s.writers_wait > 0) →
      MesaStep s { s with num_readers := s.num_readers + 1,
                          pendingBcast := s.pendingBcast + 1 }
  | beginRead_block (s : MonState) :
      (s.num_writers = 1 ∨ s.writers_wait > 0) →
      MesaStep s { s with readers_wait := s.readers_wait + 1,
                          rWaiting := s.rWaiting + 1 }
  | readResume (s : MonState) :
      s.rReady > 0 →
      MesaStep s { s with rReady := s.rReady - 1,
                          readers_wait := s.readers_wait - 1,
                          num_readers := s.num_readers + 1,
                          pendingBcast := s.pendingBcast + 1 }
  | bcast (s : MonState) :
      s.pendingBcast > 0 →
      MesaStep s { s with pendingBcast := s.pendingBcast - 1,
                          reading := s.reading + 1,
                          rReady := s.rReady + s.rWaiting,
                          rWaiting := 0 }
  | endRead_sig (s : MonState) :
      s.reading > 0 → s.num_readers = 0 → s.wWaiting > 0 →
      MesaStep s { s with reading := s.reading - 1,
                          num_readers := s.num_readers - 1,
                          wWaiting := s.wWaiting - 1,
                          wReady := s.wReady + 1 }
  | endRead_sigLost (s : MonState) :
      s.reading > 0 → s.num_readers = 0 → s.wWaiting = 0 →
      MesaStep s { s with reading := s.reading - 1,
                          num_readers := s.num_readers - 1 }
  | endRead_noSig (s : MonState) :
      s.reading > 0 → s.num_readers ≠ 0 →
      MesaStep s { s with reading := s.reading - 1,
                          num_readers := s.num_readers - 1 }
  | beginWrite_pass (s : MonState) :
      ¬(s.num_writers = 1 ∨ s.num_readers > 0) →
      MesaStep s { s with num_writers := 1, writing := s.writing + 1 }
  | beginWrite_block (s : MonState) :
      (s.num_writers = 1 ∨ s.num_readers > 0) →
      MesaStep s { s with writers_wait := s.writers_wait + 1,
                          wWaiting := s.wWaiting + 1 }
  | writeResume (s : MonState) :
      s.wReady > 0 →
      MesaStep s { s with wReady := s.wReady - 1,
                          writers_wait := s.writers_wait - 1,
                          num_writers := 1, writing := s.writing + 1 }
  | endWrite_sigRead (s : MonState) :
      s.writing > 0 → s.readers_wait > 0 → s.rWaiting > 0 →
      MesaStep s { s with writing := s.writing - 1, num_writers := 0,
                          rWaiting := s.rWaiting - 1,
                          rReady := s.rReady + 1 }
  | endWrite_sigReadLost (s : MonState) :
      s.writing > 0 → s.readers_wait > 0 → s.rWaiting = 0 →
      MesaStep s { s with writing := s.writing - 1, num_writers := 0 }
  | endWrite_sigWrite (s : MonState) :
      s.writing > 0 → ¬(s.readers_wait > 0) → s.wWaiting > 0 →
      MesaStep s { s with writing := s.writing - 1, num_writers := 0,
                          wWaiting := s.wWaiting - 1,
                          wReady := s.wReady + 1 }
  | endWrite_sigWriteLost (s : MonState) :
      s.writing > 0 → ¬(s.readers_wait > 0) → s.wWaiting = 0 →
      MesaStep s { s with writing := s.writing - 1, num_writers := 0 }

/-- The same monitor under hand-off (Hoare-style) signal semantics: a
signaled waiter resumes atomically with the signal, with no intervening
mutex acquisition, and a broadcast resumes every waiter atomically.  The
transitions execute the identical C++ statements; only the wake-up/resume
pairs of `MesaStep` are fused. -/
inductive HoareStep : MonState → MonState → Prop where
  | beginRead_pass (s : MonState) :
      ¬(s.num_writers = 1 ∨ s.writers_wait > 0) →
      HoareStep s { s with num_readers := s.num_readers + 1,
                           pendingBcast := s.pendingBcast + 1 }
  | beginRead_block (s : MonState) :
      (s.num_writers = 1 ∨ s.writers_wait > 0) →
      HoareStep s { s with readers_wait := s.readers_wait + 1,
                           rWaiting := s.rWaiting + 1 }
  | bcast (s : MonState) :
      s.pendingBcast > 0 →
      HoareStep s { s with
        pendingBcast := s.pendingBcast - 1 + s.rWaiting,
        reading := s.reading + 1,
        num_readers := s.num_readers + s.rWaiting,
        readers_wait := s.readers_wait - s.rWaiting,
        rWaiting := 0 }
  | endRead_sig (s : MonState) :
      s.reading > 0 → s.num_readers = 0 → s.wWaiting > 0 →
      HoareStep s { s with reading := s.reading - 1,
                           num_readers := s.num_readers - 1,
                           wWaiting := s.wWaiting - 1,
                           writers_wait := s.writers_wait - 1,
                           num_writers := 1, writing := s.writing + 1 }
  | endRead_sigLost (s : MonState) :
      s.reading > 0 → s.num_readers = 0 → s.wWaiting = 0 →
      HoareStep s { s with reading := s.reading - 1,
                           num_readers := s.num_readers - 1 }
  | endRead_noSig (s : MonState) :
      s.reading > 0 → s.num_readers ≠ 0 →
      HoareStep s { s with reading := s.reading - 1,
                           num_readers := s.num_readers - 1 }
  | beginWrite_pass (s : MonState) :
      ¬(s.num_writers = 1 ∨ s.num_readers > 0) →
      HoareStep s { s with num_writers := 1, writing := s.writing + 1 }
  | beginWrite_block (s : MonState) :
      (s.num_writers = 1 ∨ s.num_readers > 0) →
      HoareStep s { s with writers_wait := s.writers_wait + 1,
                           wWaiting := s.wWaiting + 1 }
  | endWrite_sigRead (s : MonState) :
      s.writing > 0 → s.readers_wait > 0 → s.rWaiting > 0 →
      HoareStep s { s with writing := s.writing - 1, num_writers := 0,
                           rWaiting := s.rWaiting - 1,
                           readers_wait := s.readers_wait - 1,
                           num_readers := s.num_readers + 1,
                           pendingBcast := s.pendingBcast + 1 }
  | endWrite_sigReadLost (s : MonState) :
      s.writing > 0 → s.readers_wait > 0 → s.rWaiting = 0 →
      HoareStep s { s with writing := s.writing - 1, num_writers := 0 }
  | endWrite_sigWrite (s : MonState) :
      s.writing > 0 → ¬(s.readers_wait > 0) → s.wWaiting > 0 →
      HoareStep s { s with wWaiting := s.wWaiting - 1,
                           writers_wait := s.writers_wait - 1,
                           num_writers := 1 }
  | endWrite_sigWriteLost (s : MonState) :
      s.writing > 0 → ¬(s.readers_wait > 0) → s.wWaiting = 0 →
      HoareStep s { s with writing := s.writing - 1, num_writers := 0 }

/-- Reachability from the initial monitor state. -/
def MesaReachable (s : MonState) : Prop :=
  Relation.ReflTransGen MesaStep monInit s

/-- Reachability under hand-off signal semantics. -/
def HoareReachable (s : MonState) : Prop :=
  Relation.ReflTransGen HoareStep monInit s

/-- The pure state effect of `rw_monitor::end_read` on the active-reader
count: `if (num_readers-- == 0) pthread_cond_signal(&can_write)` — returns
the decremented counter and whether the signal was issued (the test reads
the counter *before* the post-decrement). -/
def end_read_step (num_readers : Int) : Int × Bool :=
  (num_readers - 1, num_readers = 0)

/-- Validity of a path as the context of a hole: `CtxB p c n` states that the
crumbs of `p` carry consistent colors (a red crumb sits on a black context
and has a black-rooted balanced sibling; a black crumb has any balanced
sibling) and that the hole is expected to carry a subtree of black height
`n`; the index `c` is the color of the innermost crumb (`black` for the
empty path). -/
inductive CtxB : Path → Color → Nat → Prop where
  | nil {n : Nat} : CtxB [] black n
  | redCrumb {p : Path} {d : Dir} {k : Int} {sib : Tree} {n : Nat} :
      CtxB p black n → Balanced sib black n →
      CtxB (⟨d, red, k, sib⟩ :: p) red n
  | blackCrumb {p : Path} {d : Dir} {k : Int} {sib : Tree} {cs c2 : Color}
      {n : Nat} :
      CtxB p c2 (n + 1) → Balanced sib cs n →
      CtxB (⟨d, black, k, sib⟩ :: p) black n

/-- The outermost crumb of the path (the root of the surrounding tree) is
black; trivially true for the empty path. -/
def lastBlack : Path → Bool
  | [] => true
  | [c] => decide (c.c = black)
  | _ :: c2 :: p => lastBlack (c2 :: p)

/-- Keys contributed by the context to the left of the hole, innermost
crumbs nearest the hole. -/
def preL : Path → List Int
  | [] => []
  | c :: p =>
    preL p ++ (match c.d with
      | Dir.L => []
      | Dir.R => inorder c.sib ++ [c.k])

/-- Keys contributed by the context to the right of the hole. -/
def postL : Path → List Int
  | [] => []
  | c :: p =>
    (match c.d with
      | Dir.L => c.k :: inorder c.sib
      | Dir.R => []) ++ postL p

/-- Number of rotations performed by `fix_insert` (mirrors `fixInsert`:
the color-flip case rotates nothing and continues; a straight case performs
one rotation, a zig-zag case two; loop exit performs none). -/
def fixInsertRotations : Tree → Path → Nat
  | _, [] => 0
  | nil, _ => 0
  | node black _ _ _, _ => 0
  | node red _ _ _, c :: p =>
    if c.c = red then
      match p with
      | [] => 0
      | g :: p2 =>
        if redRoot g.sib then
          fixInsertRotations (node red nil 0 nil) p2
        else if c.d = g.d then 1 else 2
    else 0
termination_by _ p => p.length
decreasing_by all_goals simp [List.length_cons]; omega

/-- Number of rotations performed by `insert_node` (zero when the key is
already present, because `fix_insert` is not even entered). -/
def insertRotations (t : Tree) (k : Int) : Nat :=
  if (search_tree t k).isSome then 0
  else fixInsertRotations (node red nil k nil) (descendPath t k [])

/-- Number of (nested) invocations of `fix_double_black`, counting the
initial call: mirrors the recursion structure of `fixDB`. -/
def fixDBCount : Path → Nat
  | [] => 1
  | c :: p =>
    match hs : c.sib with
    | nil => 1 + fixDBCount p
    | node sc sl sk sr =>
      if sc = red then
        match c.d with
        | Dir.R => 1 + fixDBCount (⟨Dir.R, red, c.k, sr⟩ :: ⟨Dir.R, black, sk, sl⟩ :: p)
        | Dir.L => 1 + fixDBCount (⟨Dir.L, red, c.k, sl⟩ :: ⟨Dir.L, black, sk, sr⟩ :: p)
      else
        match sl with
        | node red _ _ _ => 1
        | _ =>
          match sr with
          | node red _ _ _ => 1
          | _ => if c.c = black then 1 + fixDBCount p else 1
termination_by p => pathWeight p
decreasing_by
  all_goals simp_all [pathWeight, tsize, List.map_cons, List.sum_cons]
  all_goals omega

/-- The sequence of paths at which the nested `fix_double_black` calls run
(the call sites of the repair recursion, outermost call first). -/
def fixDBPaths : Path → List Path
  | [] => [[]]
  | c :: p =>
    (c :: p) ::
    (match hs : c.sib with
    | nil => fixDBPaths p
    | node sc sl sk sr =>
      if sc = red then
        match c.d with
        | Dir.R => fixDBPaths (⟨Dir.R, red, c.k, sr⟩ :: ⟨Dir.R, black, sk, sl⟩ :: p)
        | Dir.L => fixDBPaths (⟨Dir.L, red, c.k, sl⟩ :: ⟨Dir.L, black, sk, sr⟩ :: p)
      else
        match sl with
        | node red _ _ _ => []
        | _ =>
          match sr with
          | node red _ _ _ => []
          | _ => if c.c = black then fixDBPaths p else [])
termination_by p => pathWeight p
decreasing_by
  all_goals simp_all [pathWeight, tsize, List.map_cons, List.sum_cons]
  all_goals omega

/-- Does every consecutive pair of repair call sites move strictly closer to
the root (a strictly shorter path)?  This is the "recursion only moves
upward" reading of the claim. -/
def stepsUpward : List Path → Bool
  | p1 :: p2 :: rest =>
    decide (List.length p2 < List.length p1) && stepsUpward (p2 :: rest)
  | _ => true

/-- Nesting depth of `delete_helper` calls (the two-children case is the
only recursive one). -/
def delDepth : Tree → Path → Nat
  | nil, _ => 1
  | node cn ln kn rn, p =>
    if ln = nil ∧ rn = nil then 1
    else if ln = nil ∨ rn = nil then 1
    else 1 + delDepth (setKey (minZip rn (⟨Dir.R, cn, minKey rn, ln⟩ :: p)).1 kn)
      (minZip rn (⟨Dir.R, cn, minKey rn, ln⟩ :: p)).2
termination_by t _ => tsize t
decreasing_by
  have hm : ∀ (u : Tree) (q : Path), tsize (minZip u q).1 ≤ tsize u := by
    intro u
    induction u with
    | nil => intro q; simp [minZip]
    | node c2 l2 k2 r2 ihl ihr =>
      intro q
      cases l2 with
      | nil => simp [minZip]
      | node cl ll kl rl =>
        calc tsize (minZip (node c2 (node cl ll kl rl) k2 r2) q).1
            = tsize (minZip (node cl ll kl rl) (⟨Dir.L, c2, k2, r2⟩ :: q)).1 := rfl
          _ ≤ tsize (node cl ll kl rl) := ihl _
          _ ≤ tsize (node c2 (node cl ll kl rl) k2 r2) := by simp [tsize]; omega
  have h1 : tsize (setKey (minZip rn (⟨Dir.R, cn, minKey rn, ln⟩ :: p)).1 kn)
      = tsize (minZip rn (⟨Dir.R, cn, minKey rn, ln⟩ :: p)).1 := by
    generalize (minZip rn (⟨Dir.R, cn, minKey rn, ln⟩ :: p)).1 = u
    cases u <;> simp [setKey, tsize]
  have h2 := hm rn (⟨Dir.R, cn, minKey rn, ln⟩ :: p)
  simp only [tsize]
  omega

/-- Number of `fix_double_black` invocations triggered by `delete_helper`
(zero when no double-black repair is needed). -/
def delFixCount : Tree → Path → Nat
  | nil, _ => 0
  | node cn ln kn rn, p =>
    if ln = nil ∧ rn = nil then
      match p with
      | [] => 0
      | c :: p2 => if cn = black then fixDBCount (c :: p2) else 0
    else if ln = nil ∨ rn = nil then
      match p with
      | [] => 0
      | c :: p2 =>
        if rootColor (if ln = nil then rn else ln) = black ∧ cn = black then
          fixDBCount (c :: p2)
        else 0
    else
      delFixCount (setKey (minZip rn (⟨Dir.R, cn, minKey rn, ln⟩ :: p)).1 kn)
        (minZip rn (⟨Dir.R, cn, minKey rn, ln⟩ :: p)).2
termination_by t _ => tsize t
decreasing_by
  have hm : ∀ (u : Tree) (q : Path), tsize (minZip u q).1 ≤ tsize u := by
    intro u
    induction u with
    | nil => intro q; simp [minZip]
    | node c2 l2 k2 r2 ihl ihr =>
      intro q
      cases l2 with
      | nil => simp [minZip]
      | node cl ll kl rl =>
        calc tsize (minZip (node c2 (node cl ll kl rl) k2 r2) q).1
            = tsize (minZip (node cl ll kl rl) (⟨Dir.L, c2, k2, r2⟩ :: q)).1 := rfl
          _ ≤ tsize (node cl ll kl rl) := ihl _
          _ ≤ tsize (node c2 (node cl ll kl rl) k2 r2) := by simp [tsize]; omega
  have h1 : tsize (setKey (minZip rn (⟨Dir.R, cn, minKey rn, ln⟩ :: p)).1 kn)
      = tsize (minZip rn (⟨Dir.R, cn, minKey rn, ln⟩ :: p)).1 := by
    generalize (minZip rn (⟨Dir.R, cn, minKey rn, ln⟩ :: p)).1 = u
    cases u <;> simp [setKey, tsize]
  have h2 := hm rn (⟨Dir.R, cn, minKey rn, ln⟩ :: p)
  simp only [tsize]
  omega

/-- The left child of a tree (`nil` for the empty tree). -/
def leftChild : Tree → Tree
  | nil => nil
  | node _ l _ _ => l

/-- A writer operation of the schedule: insert or delete of a key. -/
inductive Op where
  | ins (k : Int) : Op
  | del (k : Int) : Op
deriving DecidableEq, Repr

/-- Apply one writer operation (`none` propagates the crash case of
`fix_insert`, which never occurs on valid trees). -/
def applyOp (t : Tree) : Op → Option Tree
  | Op.ins k => insert_node t k
  | Op.del k => some (deleteTree t k)

/-- Apply a sequence of writer operations. -/
def applyOps : Tree → List Op → Option Tree
  | t, [] => some t
  | t, o :: os => (applyOp t o).bind (fun t2 => applyOps t2 os)

/-- Insert a list of keys into a tree, in order. -/
def insertAll : Tree → List Int → Option Tree
  | t, [] => some t
  | t, k :: ks => (insert_node t k).bind (fun t2 => insertAll t2 ks)

/-- Delete a list of keys from a tree, in order. -/
def deleteAll : Tree → List Int → Tree
  | t, [] => t
  | t, k :: ks => deleteAll (deleteTree t k) ks

/-- Every key of the list is present in the tree at the moment it is
deleted. -/
def presentAll : Tree → List Int → Bool
  | _, [] => true
  | t, k :: ks => decide (k ∈ inorder t) && presentAll (deleteTree t k) ks

/-- Inductive invariant of the monitor under hand-off signal semantics:
the counters agree with the thread counts, at most one writer is active,
and an active writer excludes admitted readers. -/
def MonInv (s : MonState) : Prop :=
  s.num_readers = (s.pendingBcast : Int) + (s.reading : Int) ∧
  s.num_writers = (s.writing : Int) ∧
  s.writing ≤ 1 ∧
  s.readers_wait = (s.rWaiting : Int) ∧
  s.writers_wait = (s.wWaiting : Int) ∧
  s.rReady = 0 ∧ s.wReady = 0 ∧
  (s.writing = 1 → s.num_readers = 0)

/-- Mesa-semantics state with two writers simultaneously active, reached by
the five-step schedule: writer A admitted; writer B blocks; A leaves and
signals B; before B re-acquires the mutex a fresh writer C passes the
(unrepeated) admission test; B resumes without re-checking its guard. -/
def mesaBad : MonState := ⟨0, 1, 0, 0, 0, 0, 0, 0, 0, 0, 2⟩

/-- A tree whose root has a non-empty left child and an absent right child:
the serializer emits the right-child marker directly after the root token,
before the left subtree. -/
def exTree6 : Tree := node black (node red nil 1 nil) 2 nil

/-- Example tree `10b,5r,f,f,15r,f,f` from the specification. -/
def exTree : Tree := node black (node red nil 5 nil) 10 (node red nil 15 nil)

/-- A valid tree on which deleting key 5 triggers the red-sibling case of
`fix_double_black` (the repaired node's path gets longer, not shorter). -/
def exTree7 : Tree :=
  node black (node black nil 5 nil) 10
    (node red (node black nil 12 nil) 15 (node black nil 20 nil))

/-- The path of the node with key 5 inside `exTree7`. -/
def exPath7 : Path :=
  [⟨Dir.L, black, 10, node red (node black nil 12 nil) 15 (node black nil 20 nil)⟩]

theorem balanced_rootColor {t : Tree} {c : Color} {n : Nat}
    (h : Balanced t c n) : rootColor t = c := by
  cases h <;> rfl

theorem balanced_noRedRed {t : Tree} {c : Color} {n : Nat}
    (h : Balanced t c n) : noRedRed t = true := by
  induction h with
  | nil => rfl
  | red hl hr ihl ihr =>
    simp only [noRedRed, ihl, ihr, Bool.and_true]
    cases hl <;> cases hr <;> simp [redRoot]
  | black hl hr ihl ihr =>
    simp [noRedRed, ihl, ihr]

theorem balanced_bh {t : Tree} {c : Color} {n : Nat}
    (h : Balanced t c n) : bh t = some n := by
  induction h with
  | nil => rfl
  | red hl hr ihl ihr => simp [bh, ihl, ihr]
  | black hl hr ihl ihr => simp [bh, ihl, ihr]

theorem rootColor_black_of_not_red {t : Tree} (h : redRoot t = false) :
    rootColor t = black := by
  cases t with
  | nil => rfl
  | node c l k r => cases c with
    | red => simp [redRoot] at h
    | black => rfl

theorem balanced_of_checks : ∀ (t : Tree) (n : Nat),
    noRedRed t = true → bh t = some n → Balanced t (rootColor t) n := by
  intro t
  induction t with
  | nil => intro n _ hb; cases hb; exact Balanced.nil
  | node c l k r ihl ihr =>
    intro n hnr hb
    simp only [noRedRed, Bool.and_eq_true] at hnr
    obtain ⟨⟨hc, hl⟩, hr⟩ := hnr
    simp only [bh] at hb
    cases hbl : bh l with
    | none => rw [hbl] at hb; exact absurd hb (by simp)
    | some a =>
      cases hbr : bh r with
      | none => rw [hbl, hbr] at hb; exact absurd hb (by simp)
      | some b =>
        rw [hbl, hbr] at hb
        simp only [Option.some_bind] at hb
        by_cases hab : a = b
        · subst hab
          rw [if_pos rfl] at hb
          have ihl2 := ihl a hl hbl
          have ihr2 := ihr a hr hbr
          cases c with
          | red =>
            simp only [if_neg (by simp : ¬ (red = black)), Option.some.injEq] at hb
            simp only [Bool.or_eq_true, decide_eq_true_eq, Bool.and_eq_true,
              Bool.not_eq_true'] at hc
            rcases hc with hc | ⟨hcl, hcr⟩
            · exact absurd hc (by simp)
            · rw [rootColor_black_of_not_red hcl] at ihl2
              rw [rootColor_black_of_not_red hcr] at ihr2
              have hna : n = a := by omega
              subst hna
              exact Balanced.red ihl2 ihr2
          | black =>
            simp at hb
            have hna : n = a + 1 := by omega
            subst hna
            exact Balanced.black ihl2 ihr2
        · rw [if_neg hab] at hb; simp at hb

theorem validRB_balanced {t : Tree} (h : ValidRB t) :
    ∃ n, Balanced t black n := by
  obtain ⟨h2, h3, h4, _⟩ := h
  obtain ⟨n, hn⟩ := Option.isSome_iff_exists.mp h4
  exact ⟨n, h2 ▸ balanced_of_checks t n h3 hn⟩

theorem balanced_validRB {t : Tree} {n : Nat}
    (h : Balanced t black n) (hbst : inv5BST t) : ValidRB t :=
  ⟨balanced_rootColor h, balanced_noRedRed h, by rw [balanced_bh h]; rfl, hbst⟩

theorem minZip_tsize : ∀ (t : Tree) (p : Path), tsize (minZip t p).1 ≤ tsize t := by
  intro t
  induction t with
  | nil => intro p; simp [minZip]
  | node c l k r ihl _ =>
    intro p
    cases l with
    | nil => simp [minZip]
    | node cl ll kl rl =>
      calc tsize (minZip (node c (node cl ll kl rl) k r) p).1
          = tsize (minZip (node cl ll kl rl) (⟨Dir.L, c, k, r⟩ :: p)).1 := rfl
        _ ≤ tsize (node cl ll kl rl) := ihl _
        _ ≤ tsize (node c (node cl ll kl rl) k r) := by simp [tsize]; omega

theorem sorted_node {c : Color} {l r : Tree} {k : Int}
    (h : inv5BST (node c l k r)) :
    inv5BST l ∧ inv5BST r ∧ (∀ x ∈ inorder l, x < k) ∧ ∀ y ∈ inorder r, k < y := by
  unfold inv5BST at h ⊢
  simp only [inorder] at h
  rw [List.Sorted, List.pairwise_append] at h
  obtain ⟨hl, hkr, hcross⟩ := h
  rw [List.pairwise_cons] at hkr
  exact ⟨hl, hkr.2, fun x hx => hcross x hx k (List.mem_cons_self _ _),
    fun y hy => hkr.1 y hy⟩

theorem search_mem : ∀ (t : Tree) (key : Int),
    (search_helper t key).isSome → key ∈ inorder t := by
  intro t
  induction t with
  | nil => intro key h; simp [search_helper] at h
  | node c l k r ihl ihr =>
    intro key h
    simp only [search_helper] at h
    by_cases h1 : key = k
    · subst h1; simp [inorder]
    · rw [if_neg h1] at h
      by_cases h2 : key < k
      · rw [if_pos h2] at h
        simp only [inorder, List.mem_append]
        exact Or.inl (ihl key h)
      · rw [if_neg h2] at h
        simp only [inorder, List.mem_append, List.mem_cons]
        exact Or.inr (Or.inr (ihr key h))

theorem mem_search : ∀ (t : Tree) (key : Int), inv5BST t →
    key ∈ inorder t → (search_helper t key).isSome := by
  intro t
  induction t with
  | nil => intro key _ h; simp [inorder] at h
  | node c l k r ihl ihr =>
    intro key hs hmem
    obtain ⟨hsl, hsr, hbl, hbr⟩ := sorted_node hs
    simp only [search_helper]
    by_cases h1 : key = k
    · rw [if_pos h1]; rfl
    · rw [if_neg h1]
      simp only [inorder, List.mem_append, List.mem_cons] at hmem
      rcases hmem with hm | hm | hm
      · rw [if_pos (hbl key hm)]
        exact ihl key hsl hm
      · exact absurd hm h1
      · have : k < key := hbr key hm
        rw [if_neg (by omega)]
        exact ihr key hsr hm

theorem findZ_none : ∀ (t : Tree) (key : Int) (p : Path),
    key ∉ inorder t → findZ t key p = none := by
  intro t
  induction t with
  | nil => intro key p _; rfl
  | node c l k r ihl ihr =>
    intro key p hmem
    simp only [inorder, List.mem_append, List.mem_cons, not_or] at hmem
    obtain ⟨hml, hmk, hmr⟩ := hmem
    simp only [findZ]
    rw [if_neg hmk]
    by_cases h2 : key < k
    · rw [if_pos h2]; exact ihl key _ hml
    · rw [if_neg h2]; exact ihr key _ hmr

/-- Claim C5: for every tree of the system (every tree reachable by bulk
load, inserts and deletes is a binary search tree), `search_tree` returns a
found node iff the key is in the tree's key set, by BST descent.  The search
is a pure function of the tree, so it has no side effects by construction. -/
theorem claim5_search_iff (t : Tree) (key : Int) (h : inv5BST t) :
    (search_tree t key).isSome ↔ key ∈ keys t :=
  ⟨search_mem t key, mem_search t key h⟩

theorem claim5_search_iff_witness :
    inv5BST exTree ∧ ((search_tree exTree 15).isSome ↔ 15 ∈ keys exTree) :=
  ⟨by decide, claim5_search_iff exTree 15 (by decide)⟩

/-- Claim C9: inserting a key that is already present is a no-op — the tree
(key set, structure and colors) is returned unchanged and no rotation is
performed, because `insert_node` only mutates when `search_tree` misses. -/
theorem claim9_insert_idempotent (t : Tree) (k : Int) (h : inv5BST t)
    (hk : k ∈ keys t) : insert_node t k = some t ∧ insertRotations t k = 0 := by
  have hs : (search_tree t k).isSome = true := mem_search t k h hk
  constructor
  · simp [insert_node, hs]
  · simp [insertRotations, hs]

theorem claim9_insert_idempotent_witness :
    inv5BST exTree ∧ 5 ∈ keys exTree ∧
    insert_node exTree 5 = some exTree ∧ insertRotations exTree 5 = 0 :=
  ⟨by decide, by decide,
    (claim9_insert_idempotent exTree 5 (by decide) (by decide)).1,
    (claim9_insert_idempotent exTree 5 (by decide) (by decide)).2⟩

/-- Claim C8: `delete_node` on the empty tree returns at once with no effect
and no error report; deleting a key that is not present from a non-empty
tree reports the failure (the error log flag) and leaves the tree completely
unmodified — the very same tree value, hence the same key set, structure and
colors. -/
theorem claim8_delete_error (t : Tree) (k : Int) :
    delete_node nil k = (nil, false) ∧
    (t ≠ nil → k ∉ keys t → delete_node t k = (t, true)) := by
  refine ⟨rfl, fun hne hk => ?_⟩
  cases t with
  | nil => exact absurd rfl hne
  | node c l key r =>
    simp only [delete_node]
    rw [findZ_none _ _ _ hk]

theorem claim8_delete_error_witness :
    exTree ≠ nil ∧ 7 ∉ keys exTree ∧ delete_node exTree 7 = (exTree, true) :=
  ⟨by decide, by decide, (claim8_delete_error exTree 7).2 (by decide) (by decide)⟩

/-- Claim C4 (a code bug the spec itself flags in §9): `end_read` decrements
the active-reader count unconditionally, but the signal test
`if (num_readers-- == 0)` reads the value *before* the post-decrement, so on
the 1 → 0 transition no waiting writer is woken, while from the 0 state a
writer is woken and the count becomes -1.  The claimed behavior — signal
exactly on 1 → 0 and a never-negative count — is the documented intent
(the function's own comment and spec §4.2), which the code contradicts. -/
theorem claim4_end_read_bug :
    end_read_step 1 = (0, false) ∧ end_read_step 0 = (-1, true) := by decide

/-- Claim C10 (counterexample): a tree that was never bulk-loaded can be the
empty tree, and `prefix_order` on an empty tree returns immediately without
ever evaluating the suppression test, so serialization is well-defined there
even though `last` was never assigned — contradicting the claim that the
serializer's behavior is undefined for every never-bulk-loaded tree. -/
theorem claim10_counterexample : get_prefix_tree nil none = some "" := rfl

/-- Claim C10 (amended): serialization is well-defined iff the tree is empty
or `last` was assigned; `build_tree` assigns `last` only for keyed entries
after the first input position, so a bulk load of a single keyed entry
leaves `last` unset while producing a non-empty tree, making serialization
undefined there (and likewise for any non-empty tree never bulk-loaded),
whereas any keyed entry after the first position makes `last` assigned. -/
theorem claim10_amended :
    (∀ (t : Tree) (lastv : Option TmpNode),
      (get_prefix_tree t lastv).isSome ↔ (t = nil ∨ lastv.isSome)) ∧
    (∀ e : TmpNode, e.k ≠ -1 →
      build_last [e] = none ∧ build_tree [e] = node e.c nil e.k nil ∧
      get_prefix_tree (build_tree [e]) (build_last [e]) = none) ∧
    (∀ l : List TmpNode, (∃ e ∈ List.drop 1 l, e.k ≠ -1) →
      (build_last l).isSome) := by
  refine ⟨fun t lastv => ?_, fun e he => ⟨rfl, rfl, rfl⟩, fun l hl => ?_⟩
  · cases t with
    | nil => simp [get_prefix_tree]
    | node c l k r =>
      cases lastv with
      | none => simp [get_prefix_tree]
      | some e => simp [get_prefix_tree]
  · obtain ⟨e, hmem, he⟩ := hl
    unfold build_last
    rw [List.getLast?_isSome]
    intro hemp
    rw [List.filter_eq_nil_iff] at hemp
    exact hemp e hmem (by simpa using he)

theorem claim10_amended_witness :
    ((7 : Int) ≠ -1) ∧
    get_prefix_tree (build_tree [⟨7, Color.red⟩]) (build_last [⟨7, Color.red⟩])
      = none ∧
    (∃ e ∈ List.drop 1 [⟨5, Color.black⟩, ⟨7, Color.red⟩], TmpNode.k e ≠ -1) ∧
    (build_last [⟨5, Color.black⟩, ⟨7, Color.red⟩]).isSome :=
  ⟨by decide, (claim10_amended.2.1 ⟨7, Color.red⟩ (by decide)).2.2,
    ⟨⟨7, Color.red⟩, by decide, by decide⟩,
    claim10_amended.2.2 [⟨5, Color.black⟩, ⟨7, Color.red⟩]
      ⟨⟨7, Color.red⟩, by decide, by decide⟩⟩

theorem renderToks_append : ∀ (a b : List Tok),
    renderToks (a ++ b) = renderToks a ++ renderToks b := by
  intro a
  induction a with
  | nil => intro b; simp [renderToks]
  | cons t ts ih =>
    intro b
    simp [renderToks, ih, String.append_assoc]

theorem countMarks_append : ∀ (a b : List Tok),
    countMarks (a ++ b) = countMarks a + countMarks b := by
  intro a
  induction a with
  | nil => intro b; simp [countMarks]
  | cons t ts ih =>
    intro b
    cases t <;> simp [countMarks, ih] <;> omega

/-- Claim C6 (counterexample): on a tree whose root has a non-empty left
child but no right child, the serializer emits the root's right-child
marker immediately after the root token — before the left subtree — not at
the right child's pre-order position as the claimed format requires. -/
theorem claim6_counterexample :
    prefix_order_helper exTree6 5 ≠ renderToks (specTokens exTree6 5) := by
  decide

/-- Claim C6 (amended): the serializer output is the comma-separated
rendering of a token sequence that lists the keyed tokens in pre-order
(parent before the entire left subtree before the entire right subtree) and
carries one `f` marker per absent child — except the right-child marker of
any node whose key equals the last bulk-load key — but places each node's
markers immediately after the node's own token (before the left subtree's
tokens) rather than at the absent child's traversal position. -/
theorem claim6_amended : ∀ (t : Tree) (lastKey : Int),
    prefix_order_helper t lastKey = renderToks (codeTokens t lastKey) ∧
    List.filter isKC (codeTokens t lastKey) = preorderKC t ∧
    countMarks (codeTokens t lastKey) + suppressCount t lastKey
      = nilChildren t := by
  intro t
  induction t with
  | nil =>
    intro lastKey
    refine ⟨rfl, rfl, rfl⟩
  | node c l k r ihl ihr =>
    intro lastKey
    obtain ⟨hl1, hl2, hl3⟩ := ihl lastKey
    obtain ⟨hr1, hr2, hr3⟩ := ihr lastKey
    refine ⟨?_, ?_, ?_⟩
    · simp only [prefix_order_helper, codeTokens, renderToks, renderTok,
        renderToks_append, hl1, hr1]
      by_cases h1 : l = nil <;> by_cases h2 : r = nil ∧ k ≠ lastKey <;>
        simp only [h1, h2, if_true, if_false, renderToks, renderTok,
          renderToks_append, String.append_assoc, if_pos, if_neg,
          not_false_eq_true, String.append_empty, String.empty_append] <;>
        simp [h1, h2, renderToks, renderTok, String.append_assoc,
          show (",f," : String) = "," ++ "f," from rfl,
          show (",f,f," : String) = "," ++ ("f," ++ "f,") from rfl]
    · simp only [codeTokens, preorderKC, List.filter_cons, List.filter_append,
        hl2, hr2]
      by_cases h1 : l = nil <;> by_cases h2 : r = nil ∧ k ≠ lastKey <;>
        simp [h1, h2, isKC]
    · have e1 : countMarks (codeTokens (node c l k r) lastKey)
          = (if l = nil then 1 else 0) + (if r = nil ∧ k ≠ lastKey then 1 else 0)
            + countMarks (codeTokens l lastKey)
            + countMarks (codeTokens r lastKey) := by
        simp only [codeTokens, countMarks, countMarks_append]
        by_cases h1 : l = nil <;> by_cases h2 : r = nil ∧ k ≠ lastKey <;>
          simp [h1, h2, countMarks] <;> omega
      have e2 : suppressCount (node c l k r) lastKey
          = (if r = nil ∧ k = lastKey then 1 else 0) + suppressCount l lastKey
            + suppressCount r lastKey := rfl
      have e3 : nilChildren (node c l k r)
          = (if l = nil then 1 else 0) + (if r = nil then 1 else 0)
            + nilChildren l + nilChildren r := rfl
      have hABC : (if r = nil ∧ k ≠ lastKey then 1 else 0)
          + (if r = nil ∧ k = lastKey then 1 else 0)
          = (if r = nil then (1 : Nat) else 0) := by
        by_cases h3 : r = nil <;> by_cases h4 : k = lastKey <;> simp [h3, h4]
      rw [e1, e2, e3]
      omega

/-- Claim C3 (counterexample): under POSIX condition-variable semantics a
signaled waiter must re-acquire the mutex and — because `begin_write` uses
`if` rather than `while` — does not re-check its admission guard.  Writer A
is admitted; writer B blocks; A leaves and signals B; before B re-acquires
the mutex a fresh writer C passes the admission test (`num_writers == 0`,
no readers); then B resumes and also marks itself active: two writers are
active simultaneously in a reachable state. -/
theorem claim3_counterexample : MesaReachable mesaBad ∧ mesaBad.writing = 2 := by
  constructor
  · have s1 : MesaStep monInit ⟨0, 1, 0, 0, 0, 0, 0, 0, 0, 0, 1⟩ :=
      MesaStep.beginWrite_pass monInit (by decide)
    have s2 : MesaStep ⟨0, 1, 0, 0, 0, 0, 0, 0, 0, 0, 1⟩
        ⟨0, 1, 0, 1, 0, 0, 0, 0, 1, 0, 1⟩ :=
      MesaStep.beginWrite_block _ (by decide)
    have s3 : MesaStep ⟨0, 1, 0, 1, 0, 0, 0, 0, 1, 0, 1⟩
        ⟨0, 0, 0, 1, 0, 0, 0, 0, 0, 1, 0⟩ :=
      MesaStep.endWrite_sigWrite _ (by decide) (by decide) (by decide)
    have s4 : MesaStep ⟨0, 0, 0, 1, 0, 0, 0, 0, 0, 1, 0⟩
        ⟨0, 1, 0, 1, 0, 0, 0, 0, 0, 1, 1⟩ :=
      MesaStep.beginWrite_pass _ (by decide)
    have s5 : MesaStep ⟨0, 1, 0, 1, 0, 0, 0, 0, 0, 1, 1⟩ mesaBad :=
      MesaStep.writeResume _ (by decide)
    exact Relation.ReflTransGen.head s1 (Relation.ReflTransGen.head s2
      (Relation.ReflTransGen.head s3 (Relation.ReflTransGen.head s4
        (Relation.ReflTransGen.single s5))))
  · rfl

theorem monInv_init : MonInv monInit := by
  simp [MonInv, monInit]

theorem monInv_step {s s2 : MonState} (h : MonInv s) (hs : HoareStep s s2) :
    MonInv s2 := by
  obtain ⟨h1, h2, h3, h4, h5, h6, h7, h8⟩ := h
  cases hs with
  | beginRead_pass hg => simp only [MonInv] at *; omega
  | beginRead_block hg => simp only [MonInv] at *; omega
  | bcast hg => simp only [MonInv] at *; omega
  | endRead_sig hg1 hg2 hg3 => simp only [MonInv] at *; omega
  | endRead_sigLost hg1 hg2 hg3 => simp only [MonInv] at *; omega
  | endRead_noSig hg1 hg2 => simp only [MonInv] at *; omega
  | beginWrite_pass hg => simp only [MonInv] at *; omega
  | beginWrite_block hg => simp only [MonInv] at *; omega
  | endWrite_sigRead hg1 hg2 hg3 => simp only [MonInv] at *; omega
  | endWrite_sigReadLost hg1 hg2 hg3 => simp only [MonInv] at *; omega
  | endWrite_sigWrite hg1 hg2 hg3 => simp only [MonInv] at *; omega
  | endWrite_sigWriteLost hg1 hg2 hg3 => simp only [MonInv] at *; omega

/-- Claim C3 (amended): under hand-off signal semantics — the woken waiter
resumes atomically with the signal that wakes it, with no thread acquiring
the monitor mutex in between — every reachable monitor state has at most
one active writer, and whenever a writer is active the active-reader count
is zero. -/
theorem claim3_amended (s : MonState) (h : HoareReachable s) :
    s.writing ≤ 1 ∧ (s.writing = 1 → s.num_readers = 0) := by
  have hInv : MonInv s := by
    unfold HoareReachable at h
    induction h with
    | refl => exact monInv_init
    | tail hsteps hstep ih => exact monInv_step ih hstep
  obtain ⟨h1, h2, h3, h4, h5, h6, h7, h8⟩ := hInv
  exact ⟨h3, h8⟩

theorem claim3_amended_witness :
    monInit.writing ≤ 1 ∧ (monInit.writing = 1 → monInit.num_readers = 0) :=
  claim3_amended monInit Relation.ReflTransGen.refl

theorem inorder_paintBlack (t : Tree) : inorder (paintBlack t) = inorder t := by
  cases t <;> rfl

theorem inorder_paintRed (t : Tree) : inorder (paintRed t) = inorder t := by
  cases t <;> rfl

theorem paintBlack_balanced_red {t : Tree} {n : Nat} (h : Balanced t red n) :
    Balanced (paintBlack t) black (n + 1) := by
  cases h with
  | red hl hr => exact Balanced.black hl hr

theorem paintBlack_of_black {t : Tree} (h : rootColor t = black) :
    paintBlack t = t := by
  cases t with
  | nil => rfl
  | node c l k r =>
    simp only [rootColor] at h
    subst h
    rfl

theorem plug_inorder : ∀ (p : Path) (s : Tree),
    inorder (plug s p) = preL p ++ inorder s ++ postL p := by
  intro p
  induction p with
  | nil => intro s; simp [plug, preL, postL]
  | cons c p ih =>
    intro s
    show inorder (plug (assemble c s) p) = _
    rw [ih]
    cases hd : c.d <;>
      simp [assemble, hd, inorder, preL, postL, List.append_assoc]

theorem plug_inorder_congr {s s2 : Tree} (p : Path)
    (h : inorder s = inorder s2) : inorder (plug s p) = inorder (plug s2 p) := by
  rw [plug_inorder, plug_inorder, h]

theorem lastBlack_of_cons {c : Crumb} {p : Path}
    (h : lastBlack (c :: p) = true) : lastBlack p = true := by
  cases p with
  | nil => rfl
  | cons c2 p2 => exact h

theorem lastBlack_red_cons {d : Dir} {k : Int} {sib : Tree}
    (h : lastBlack [(⟨d, red, k, sib⟩ : Crumb)] = true) : False := by
  simp [lastBlack] at h

theorem plug_balanced : ∀ (p : Path) (ci : Color) (n : Nat) (t : Tree)
    (ct : Color), CtxB p ci n → Balanced t ct n → (ci = red → ct = black) →
    lastBlack p = true → (p = [] → ct = black) →
    ∃ N, Balanced (plug t p) black N := by
  intro p
  induction p with
  | nil =>
    intro ci n t ct hctx hbal hred hlast hemp
    rw [hemp rfl] at hbal
    exact ⟨n, hbal⟩
  | cons c p ih =>
    intro ci n t ct hctx hbal hred hlast hemp
    cases hctx with
    | redCrumb hp hsib =>
      have hct : ct = black := hred rfl
      subst hct
      rename_i d k sib
      have hpne : p ≠ [] := by
        intro he
        subst he
        exact lastBlack_red_cons hlast
      have hassem : Balanced (assemble ⟨d, red, k, sib⟩ t) red n := by
        cases d with
        | L => exact Balanced.red hbal hsib
        | R => exact Balanced.red hsib hbal
      exact ih black n _ red hp hassem (fun h => by cases h)
        (lastBlack_of_cons hlast) (fun h => absurd h hpne)
    | blackCrumb hp hsib =>
      rename_i d k sib cs c2
      have hassem : Balanced (assemble ⟨d, black, k, sib⟩ t) black (n + 1) := by
        cases d with
        | L => exact Balanced.black hbal hsib
        | R => exact Balanced.black hsib hbal
      exact ih c2 (n + 1) _ black hp hassem (fun _ => rfl)
        (lastBlack_of_cons hlast) (fun _ => rfl)

theorem redRoot_balanced {t : Tree} {c : Color} {n : Nat}
    (hb : Balanced t c n) (h : redRoot t = true) : c = red := by
  cases hb with
  | nil => simp [redRoot] at h
  | red hl hr => rfl
  | black hl hr => simp [redRoot] at h

theorem notRedRoot_balanced {t : Tree} {c : Color} {n : Nat}
    (hb : Balanced t c n) (h : ¬ redRoot t = true) : c = black := by
  cases hb with
  | nil => rfl
  | red hl hr => simp [redRoot] at h
  | black hl hr => rfl

theorem fixInsert_ok : ∀ (len : Nat) (p : Path) (t : Tree) (n : Nat)
    (ci : Color), List.length p ≤ len →
    Balanced t red n → CtxB p ci n → lastBlack p = true →
    ∃ t2 N, fixInsert t p = some t2 ∧ Balanced t2 black N ∧
      inorder t2 = inorder (plug t p) := by
  intro len
  induction len with
  | zero =>
    intro p t n ci hlen hbal hctx hlast
    have hp : p = [] := by
      cases p with
      | nil => rfl
      | cons a b => simp at hlen
    subst hp
    refine ⟨paintBlack t, n + 1, ?_, paintBlack_balanced_red hbal, ?_⟩
    · simp [fixInsert]
    · rw [inorder_paintBlack]; rfl
  | succ len ih =>
    intro p t n ci hlen hbal hctx hlast
    cases p with
    | nil =>
      refine ⟨paintBlack t, n + 1, ?_, paintBlack_balanced_red hbal, ?_⟩
      · simp [fixInsert]
      · rw [inorder_paintBlack]; rfl
    | cons c p1 =>
      cases hbal with
      | red hl hr =>
        rename_i tl tr tk
        cases hctx with
        | redCrumb hp hsib =>
          rename_i d k sib
          cases p1 with
          | nil => exact absurd hlast (by simp [lastBlack])
          | cons g p2 =>
            cases hp with
            | blackCrumb hp2 hgsib =>
              rename_i gd gk gsib cs c2
              have hlen2 : List.length p2 ≤ len := by
                simp [List.length_cons] at hlen
                omega
              have hlast2 : lastBlack p2 = true :=
                lastBlack_of_cons (lastBlack_of_cons hlast)
              cases gd with
              | L =>
                by_cases hu : redRoot gsib = true
                · have hfix : fixInsert (node red tl tk tr)
                      (⟨d, red, k, sib⟩ :: ⟨Dir.L, black, gk, gsib⟩ :: p2)
                      = fixInsert (node red
                        (paintBlack (assemble ⟨d, red, k, sib⟩ (node red tl tk tr)))
                        gk (paintBlack gsib)) p2 := by
                    rw [fixInsert]
                    simp [hu]
                  have hcs : cs = red := redRoot_balanced hgsib hu
                  subst hcs
                  cases hgsib with
                  | red hga hgb =>
                    rename_i ga gb gkk
                    have hfoc : Balanced (node red
                        (paintBlack (assemble ⟨d, red, k, sib⟩ (node red tl tk tr)))
                        gk (paintBlack (node red ga gkk gb))) red (n + 1) := by
                      refine Balanced.red ?_ (Balanced.black hga hgb)
                      cases d with
                      | L => exact Balanced.black (Balanced.red hl hr) hsib
                      | R => exact Balanced.black hsib (Balanced.red hl hr)
                    obtain ⟨t2, N, heq, hbal2, hio⟩ :=
                      ih p2 _ (n + 1) c2 hlen2 hfoc hp2 hlast2
                    refine ⟨t2, N, hfix.trans heq, hbal2, ?_⟩
                    rw [hio]
                    show _ = inorder (plug (assemble ⟨Dir.L, black, gk, node red ga gkk gb⟩
                      (assemble ⟨d, red, k, sib⟩ (node red tl tk tr))) p2)
                    apply plug_inorder_congr
                    cases d <;>
                      simp [assemble, inorder, paintBlack, List.append_assoc]
                · have hcs : cs = black := notRedRoot_balanced hgsib hu
                  subst hcs
                  cases d with
                  | L =>
                    have hfix : fixInsert (node red tl tk tr)
                        (⟨Dir.L, red, k, sib⟩ :: ⟨Dir.L, black, gk, gsib⟩ :: p2)
                        = some (paintBlack (plug (node black (node red tl tk tr) k
                          (node red sib gk gsib)) p2)) := by
                      rw [fixInsert]
                      simp [hu]
                    have hS : Balanced (node black (node red tl tk tr) k
                        (node red sib gk gsib)) black (n + 1) :=
                      Balanced.black (Balanced.red hl hr) (Balanced.red hsib hgsib)
                    obtain ⟨N, hN⟩ := plug_balanced p2 c2 (n + 1) _ black hp2 hS
                      (fun _ => rfl) hlast2 (fun _ => rfl)
                    refine ⟨_, N, hfix, ?_, ?_⟩
                    · rw [paintBlack_of_black (balanced_rootColor hN)]
                      exact hN
                    · rw [inorder_paintBlack]
                      show inorder (plug _ p2) =
                        inorder (plug (assemble ⟨Dir.L, black, gk, gsib⟩
                          (assemble ⟨Dir.L, red, k, sib⟩ (node red tl tk tr))) p2)
                      apply plug_inorder_congr
                      simp [assemble, inorder, List.append_assoc]
                  | R =>
                    have hfix : fixInsert (node red tl tk tr)
                        (⟨Dir.R, red, k, sib⟩ :: ⟨Dir.L, black, gk, gsib⟩ :: p2)
                        = some (paintBlack (plug (node black (node red sib k tl) tk
                          (node red tr gk gsib)) p2)) := by
                      rw [fixInsert]
                      simp [hu]
                    have hS : Balanced (node black (node red sib k tl) tk
                        (node red tr gk gsib)) black (n + 1) :=
                      Balanced.black (Balanced.red hsib hl) (Balanced.red hr hgsib)
                    obtain ⟨N, hN⟩ := plug_balanced p2 c2 (n + 1) _ black hp2 hS
                      (fun _ => rfl) hlast2 (fun _ => rfl)
                    refine ⟨_, N, hfix, ?_, ?_⟩
                    · rw [paintBlack_of_black (balanced_rootColor hN)]
                      exact hN
                    · rw [inorder_paintBlack]
                      show inorder (plug _ p2) =
                        inorder (plug (assemble ⟨Dir.L, black, gk, gsib⟩
                          (assemble ⟨Dir.R, red, k, sib⟩ (node red tl tk tr))) p2)
                      apply plug_inorder_congr
                      simp [assemble, inorder, List.append_assoc]
              | R =>
                by_cases hu : redRoot gsib = true
                · have hfix : fixInsert (node red tl tk tr)
                      (⟨d, red, k, sib⟩ :: ⟨Dir.R, black, gk, gsib⟩ :: p2)
                      = fixInsert (node red (paintBlack gsib) gk
                        (paintBlack (assemble ⟨d, red, k, sib⟩ (node red tl tk tr)))) p2 := by
                    rw [fixInsert]
                    simp [hu]
                  have hcs : cs = red := redRoot_balanced hgsib hu
                  subst hcs
                  cases hgsib with
                  | red hga hgb =>
                    rename_i ga gb gkk
                    have hfoc : Balanced (node red (paintBlack (node red ga gkk gb)) gk
                        (paintBlack (assemble ⟨d, red, k, sib⟩ (node red tl tk tr))))
                        red (n + 1) := by
                      refine Balanced.red (Balanced.black hga hgb) ?_
                      cases d with
                      | L => exact Balanced.black (Balanced.red hl hr) hsib
                      | R => exact Balanced.black hsib (Balanced.red hl hr)
                    obtain ⟨t2, N, heq, hbal2, hio⟩ :=
                      ih p2 _ (n + 1) c2 hlen2 hfoc hp2 hlast2
                    refine ⟨t2, N, hfix.trans heq, hbal2, ?_⟩
                    rw [hio]
                    show _ = inorder (plug (assemble ⟨Dir.R, black, gk, node red ga gkk gb⟩
                      (assemble ⟨d, red, k, sib⟩ (node red tl tk tr))) p2)
                    apply plug_inorder_congr
                    cases d <;>
                      simp [assemble, inorder, paintBlack, List.append_assoc]
                · have hcs : cs = black := notRedRoot_balanced hgsib hu
                  subst hcs
                  cases d with
                  | R =>
                    have hfix : fixInsert (node red tl tk tr)
                        (⟨Dir.R, red, k, sib⟩ :: ⟨Dir.R, black, gk, gsib⟩ :: p2)
                        = some (paintBlack (plug (node black (node red gsib gk sib) k
                          (node red tl tk tr)) p2)) := by
                      rw [fixInsert]
                      simp [hu]
                    have hS : Balanced (node black (node red gsib gk sib) k
                        (node red tl tk tr)) black (n + 1) :=
                      Balanced.black (Balanced.red hgsib hsib) (Balanced.red hl hr)
                    obtain ⟨N, hN⟩ := plug_balanced p2 c2 (n + 1) _ black hp2 hS
                      (fun _ => rfl) hlast2 (fun _ => rfl)
                    refine ⟨_, N, hfix, ?_, ?_⟩
                    · rw [paintBlack_of_black (balanced_rootColor hN)]
                      exact hN
                    · rw [inorder_paintBlack]
                      show inorder (plug _ p2) =
                        inorder (plug (assemble ⟨Dir.R, black, gk, gsib⟩
                          (assemble ⟨Dir.R, red, k, sib⟩ (node red tl tk tr))) p2)
                      apply plug_inorder_congr
                      simp [assemble, inorder, List.append_assoc]
                  | L =>
                    have hfix : fixInsert (node red tl tk tr)
                        (⟨Dir.L, red, k, sib⟩ :: ⟨Dir.R, black, gk, gsib⟩ :: p2)
                        = some (paintBlack (plug (node black (node red gsib gk tl) tk
                          (node red tr k sib)) p2)) := by
                      rw [fixInsert]
                      simp [hu]
                    have hS : Balanced (node black (node red gsib gk tl) tk
                        (node red tr k sib)) black (n + 1) :=
                      Balanced.black (Balanced.red hgsib hl) (Balanced.red hr hsib)
                    obtain ⟨N, hN⟩ := plug_balanced p2 c2 (n + 1) _ black hp2 hS
                      (fun _ => rfl) hlast2 (fun _ => rfl)
                    refine ⟨_, N, hfix, ?_, ?_⟩
                    · rw [paintBlack_of_black (balanced_rootColor hN)]
                      exact hN
                    · rw [inorder_paintBlack]
                      show inorder (plug _ p2) =
                        inorder (plug (assemble ⟨Dir.R, black, gk, gsib⟩
                          (assemble ⟨Dir.L, red, k, sib⟩ (node red tl tk tr))) p2)
                      apply plug_inorder_congr
                      simp [assemble, inorder, List.append_assoc]
        | blackCrumb hp hsib =>
          rename_i d k sib cs c2
          have hfix : fixInsert (node red tl tk tr) (⟨d, black, k, sib⟩ :: p1)
              = some (paintBlack (plug (node red tl tk tr)
                (⟨d, black, k, sib⟩ :: p1))) := by
            rw [fixInsert.eq_def]
            simp
          obtain ⟨N, hN⟩ := plug_balanced (⟨d, black, k, sib⟩ :: p1) black n _ red
            (CtxB.blackCrumb hp hsib) (Balanced.red hl hr) (fun h => nomatch h)
            hlast (fun h => nomatch h)
          refine ⟨_, N, hfix, ?_, ?_⟩
          · rw [paintBlack_of_black (balanced_rootColor hN)]
            exact hN
          · rw [inorder_paintBlack]

theorem insert_helper_mem : ∀ (t : Tree) (k x : Int),
    x ∈ inorder (insert_helper t k) ↔ (x = k ∨ x ∈ inorder t) := by
  intro t
  induction t with
  | nil => intro k x; simp [insert_helper, inorder]
  | node c l key r ihl ihr =>
    intro k x
    simp only [insert_helper]
    by_cases h1 : k < key
    · rw [if_pos h1]
      simp only [inorder, List.mem_append, List.mem_cons, ihl]
      tauto
    · rw [if_neg h1]
      by_cases h2 : k > key
      · rw [if_pos h2]
        simp only [inorder, List.mem_append, List.mem_cons, ihr]
        tauto
      · rw [if_neg h2]
        have hkey : k = key := by omega
        subst hkey
        simp only [inorder, List.mem_append, List.mem_cons]
        tauto

theorem insert_helper_sorted : ∀ (t : Tree) (k : Int), inv5BST t →
    inv5BST (insert_helper t k) := by
  intro t
  induction t with
  | nil => intro k _; simp [insert_helper, inv5BST, inorder]
  | node c l key r ihl ihr =>
    intro k hs
    obtain ⟨hsl, hsr, hbl, hbr⟩ := sorted_node hs
    simp only [insert_helper]
    by_cases h1 : k < key
    · rw [if_pos h1]
      unfold inv5BST
      simp only [inorder]
      rw [List.Sorted, List.pairwise_append]
      refine ⟨ihl k hsl, ?_, ?_⟩
      · rw [List.pairwise_cons]
        exact ⟨hbr, hsr⟩
      · intro x hx y hy
        rw [insert_helper_mem] at hx
        rcases hx with rfl | hx
        · rcases List.mem_cons.mp hy with rfl | hy
          · exact h1
          · exact lt_trans h1 (hbr y hy)
        · rcases List.mem_cons.mp hy with rfl | hy
          · exact hbl x hx
          · exact lt_trans (hbl x hx) (hbr y hy)
    · rw [if_neg h1]
      by_cases h2 : k > key
      · rw [if_pos h2]
        unfold inv5BST
        simp only [inorder]
        rw [List.Sorted, List.pairwise_append]
        refine ⟨hsl, ?_, ?_⟩
        · rw [List.pairwise_cons]
          refine ⟨?_, ihr k hsr⟩
          intro y hy
          rw [insert_helper_mem] at hy
          rcases hy with rfl | hy
          · exact h2
          · exact hbr y hy
        · intro x hx y hy
          rcases List.mem_cons.mp hy with rfl | hy
          · exact hbl x hx
          · rw [insert_helper_mem] at hy
            rcases hy with rfl | hy
            · exact lt_trans (hbl x hx) h2
            · exact lt_trans (hbl x hx) (hbr y hy)
      · rw [if_neg h2]
        exact hs

theorem descend_plug : ∀ (t : Tree) (k : Int) (acc : Path), k ∉ inorder t →
    plug (node red nil k nil) (descendPath t k acc)
      = plug (insert_helper t k) acc := by
  intro t
  induction t with
  | nil => intro k acc _; rfl
  | node c l key r ihl ihr =>
    intro k acc hmem
    simp only [inorder, List.mem_append, List.mem_cons, not_or] at hmem
    obtain ⟨hml, hmk, hmr⟩ := hmem
    simp only [descendPath, insert_helper]
    by_cases h1 : k < key
    · rw [if_pos h1, if_pos h1]
      rw [ihl k _ hml]
      rfl
    · rw [if_neg h1, if_neg h1]
      by_cases h2 : k > key
      · rw [if_pos h2, if_pos h2]
        rw [ihr k _ hmr]
        rfl
      · exact absurd (by omega : k = key) hmk

theorem descend_lastBlack : ∀ (t : Tree) (k : Int) (acc : Path),
    lastBlack acc = true → (acc = [] → rootColor t = black) →
    lastBlack (descendPath t k acc) = true := by
  intro t
  induction t with
  | nil => intro k acc h _; exact h
  | node c l key r ihl ihr =>
    intro k acc hlast hroot
    have hstep : ∀ (d : Dir) (sib : Tree),
        lastBlack (⟨d, c, key, sib⟩ :: acc) = true := by
      intro d sib
      cases acc with
      | nil =>
        have hc := hroot rfl
        simp only [rootColor] at hc
        subst hc
        simp [lastBlack]
      | cons a b => exact hlast
    simp only [descendPath]
    by_cases h1 : k < key
    · rw [if_pos h1]
      exact ihl k _ (hstep Dir.L r) (fun h => nomatch h)
    · rw [if_neg h1]
      by_cases h2 : k > key
      · rw [if_pos h2]
        exact ihr k _ (hstep Dir.R l) (fun h => nomatch h)
      · rw [if_neg h2]
        exact hlast

theorem descend_ctx : ∀ (t : Tree) (k : Int) (acc : Path) (n : Nat)
    (ct ci : Color), Balanced t ct n → CtxB acc ci n → (ci = red → ct = black) →
    k ∉ inorder t → ∃ ci2, CtxB (descendPath t k acc) ci2 0 := by
  intro t
  induction t with
  | nil =>
    intro k acc n ct ci hbal hctx hred _
    cases hbal
    exact ⟨ci, hctx⟩
  | node c l key r ihl ihr =>
    intro k acc n ct ci hbal hctx hred hmem
    simp only [inorder, List.mem_append, List.mem_cons, not_or] at hmem
    obtain ⟨hml, hmk, hmr⟩ := hmem
    simp only [descendPath]
    by_cases h1 : k < key
    · rw [if_pos h1]
      cases hbal with
      | red hl hr =>
        have hci : ci = black := by
          cases ci with
          | red => exact absurd (hred rfl) (by decide)
          | black => rfl
        subst hci
        exact ihl k _ n black red hl (CtxB.redCrumb hctx hr) (fun _ => rfl) hml
      | black hl hr =>
        exact ihl k _ _ _ black hl (CtxB.blackCrumb hctx hr)
          (fun h => nomatch h) hml
    · rw [if_neg h1]
      by_cases h2 : k > key
      · rw [if_pos h2]
        cases hbal with
        | red hl hr =>
          have hci : ci = black := by
            cases ci with
            | red => exact absurd (hred rfl) (by decide)
            | black => rfl
          subst hci
          exact ihr k _ n black red hr (CtxB.redCrumb hctx hl) (fun _ => rfl) hmr
        | black hl hr =>
          exact ihr k _ _ _ black hr (CtxB.blackCrumb hctx hl)
            (fun h => nomatch h) hmr
      · exact absurd (by omega : k = key) hmk

theorem insert_ok (t : Tree) (k : Int) (h : ValidRB t) :
    ∃ t2, insert_node t k = some t2 ∧ ValidRB t2 ∧
      (∀ x, x ∈ inorder t2 ↔ (x = k ∨ x ∈ inorder t)) := by
  by_cases hk : k ∈ inorder t
  · have hs : (search_tree t k).isSome = true := mem_search t k h.2.2.2 hk
    refine ⟨t, by simp [insert_node, hs], h, fun x => ?_⟩
    constructor
    · exact Or.inr
    · rintro (rfl | hx)
      exacts [hk, hx]
  · have hs : ¬ (search_tree t k).isSome = true := by
      intro hcontra
      exact hk (search_mem t k hcontra)
    obtain ⟨n, hbal⟩ := validRB_balanced h
    obtain ⟨ci2, hctx⟩ := descend_ctx t k [] n black black hbal CtxB.nil
      (fun _ => rfl) hk
    have hlast : lastBlack (descendPath t k []) = true :=
      descend_lastBlack t k [] rfl (fun _ => h.1)
    have hleaf : Balanced (node red nil k nil) red 0 :=
      Balanced.red Balanced.nil Balanced.nil
    obtain ⟨t2, N, heq, hbal2, hio⟩ := fixInsert_ok
      (List.length (descendPath t k [])) (descendPath t k [])
      (node red nil k nil) 0 ci2 (le_refl _) hleaf hctx hlast
    have hplug : plug (node red nil k nil) (descendPath t k [])
        = insert_helper t k := descend_plug t k [] hk
    rw [hplug] at hio
    refine ⟨t2, ?_, ?_, fun x => ?_⟩
    · unfold insert_node
      rw [if_neg hs]
      exact heq
    · exact balanced_validRB hbal2
        (by rw [inv5BST, hio]; exact insert_helper_sorted t k h.2.2.2)
    · rw [hio, insert_helper_mem]

theorem fixDB_pre_post : ∀ (p : Path),
    preL (fixDB p) = preL p ∧ postL (fixDB p) = postL p := by
  intro p
  induction p using fixDB.induct with
  | case1 => simp [fixDB]
  | case2 c p hs ih =>
    obtain ⟨d, cc, k, sib⟩ := c
    simp only [Crumb.sib] at hs
    subst hs
    rw [fixDB.eq_def]
    simp [preL, postL, ih.1, ih.2]
  | case3 c p sl sk sr hd hs ih =>
    obtain ⟨d, cc, k, sib⟩ := c
    simp only [Crumb.sib] at hs
    simp only [Crumb.d] at hd
    subst hs
    subst hd
    obtain ⟨ih1, ih2⟩ := ih
    simp only [Crumb.k] at ih1 ih2
    rw [fixDB.eq_def]
    constructor
    · simp [preL, postL, inorder, List.append_assoc, ih1]
    · simp [preL, postL, inorder, List.append_assoc, ih2]
  | case4 c p sl sk sr hd hs ih =>
    obtain ⟨d, cc, k, sib⟩ := c
    simp only [Crumb.sib] at hs
    simp only [Crumb.d] at hd
    subst hs
    subst hd
    obtain ⟨ih1, ih2⟩ := ih
    simp only [Crumb.k] at ih1 ih2
    rw [fixDB.eq_def]
    constructor
    · simp [preL, postL, inorder, List.append_assoc, ih1]
    · simp [preL, postL, inorder, List.append_assoc, ih2]
  | case5 c p sc sk sr hnr sll slk slr hs1 hd hs =>
    obtain ⟨d, cc, k, sib⟩ := c
    simp only [Crumb.sib] at hs
    simp only [Crumb.d] at hd
    subst hs
    subst hd
    have hsc : sc = black := by
      cases sc with
      | red => exact absurd rfl hnr
      | black => rfl
    subst hsc
    rw [fixDB.eq_def]
    simp [preL, postL, inorder, List.append_assoc]
  | case6 c p sc sk sr hnr sll slk slr hs1 hd hs =>
    obtain ⟨d, cc, k, sib⟩ := c
    simp only [Crumb.sib] at hs
    simp only [Crumb.d] at hd
    subst hs
    subst hd
    have hsc : sc = black := by
      cases sc with
      | red => exact absurd rfl hnr
      | black => rfl
    subst hsc
    rw [fixDB.eq_def]
    simp [preL, postL, inorder, List.append_assoc]
  | case7 c p sc sl sk hnr srl srk srr hd hs2 hs1 hs hnl =>
    obtain ⟨d, cc, k, sib⟩ := c
    simp only [Crumb.sib] at hs
    simp only [Crumb.d] at hd
    subst hs
    subst hd
    have hsc : sc = black := by
      cases sc with
      | red => exact absurd rfl hnr
      | black => rfl
    subst hsc
    cases sl with
    | nil =>
      rw [fixDB.eq_def]
      simp [preL, postL, inorder, List.append_assoc]
    | node c1 a kk b =>
      cases c1 with
      | red => exact (hnl a kk b rfl rfl (proof_irrel_heq _ _)).elim
      | black =>
        rw [fixDB.eq_def]
        simp [preL, postL, inorder, List.append_assoc]
  | case8 c p sc sl sk hnr srl srk srr hd hs2 hs1 hs hnl =>
    obtain ⟨d, cc, k, sib⟩ := c
    simp only [Crumb.sib] at hs
    simp only [Crumb.d] at hd
    subst hs
    subst hd
    have hsc : sc = black := by
      cases sc with
      | red => exact absurd rfl hnr
      | black => rfl
    subst hsc
    cases sl with
    | nil =>
      rw [fixDB.eq_def]
      simp [preL, postL, inorder, List.append_assoc]
    | node c1 a kk b =>
      cases c1 with
      | red => exact (hnl a kk b rfl rfl (proof_irrel_heq _ _)).elim
      | black =>
        rw [fixDB.eq_def]
        simp [preL, postL, inorder, List.append_assoc]
  | case9 c p sc sl sk sr hs2 hnr hcc hs1 hnl hs hnrr ih1 =>
    obtain ⟨d, cc, k, sib⟩ := c
    simp only [Crumb.sib] at hs
    simp only [Crumb.c] at hcc
    subst hs
    subst hcc
    have hsc : sc = black := by
      cases sc with
      | red => exact absurd rfl hnr
      | black => rfl
    subst hsc
    cases sl with
    | nil =>
      cases sr with
      | nil =>
        cases d <;>
          (rw [fixDB.eq_def]
           simp [preL, postL, inorder, List.append_assoc, ih1.1, ih1.2])
      | node c2 a2 kk2 b2 =>
        cases c2 with
        | red => exact (hnrr a2 kk2 b2 rfl rfl (proof_irrel_heq _ _)).elim
        | black =>
          cases d <;>
            (rw [fixDB.eq_def]
             simp [preL, postL, inorder, List.append_assoc, ih1.1, ih1.2])
    | node c1 a kk b =>
      cases c1 with
      | red => exact (hnl a kk b rfl rfl (proof_irrel_heq _ _)).elim
      | black =>
        cases sr with
        | nil =>
          cases d <;>
            (rw [fixDB.eq_def]
             simp [preL, postL, inorder, List.append_assoc, ih1.1, ih1.2])
        | node c2 a2 kk2 b2 =>
          cases c2 with
          | red => exact (hnrr a2 kk2 b2 rfl rfl (proof_irrel_heq _ _)).elim
          | black =>
            cases d <;>
              (rw [fixDB.eq_def]
               simp [preL, postL, inorder, List.append_assoc, ih1.1, ih1.2])
  | case10 c p sc sl sk sr hs2 hnr hcc hs1 hnl hs hnrr =>
    obtain ⟨d, cc, k, sib⟩ := c
    simp only [Crumb.sib] at hs
    simp only [Crumb.c] at hcc
    subst hs
    have hccr : cc = red := by
      cases cc with
      | red => rfl
      | black => exact absurd rfl hcc
    subst hccr
    have hsc : sc = black := by
      cases sc with
      | red => exact absurd rfl hnr
      | black => rfl
    subst hsc
    cases sl with
    | nil =>
      cases sr with
      | nil =>
        cases d <;>
          (rw [fixDB.eq_def]
           simp [preL, postL, inorder, List.append_assoc])
      | node c2 a2 kk2 b2 =>
        cases c2 with
        | red => exact (hnrr a2 kk2 b2 rfl rfl (proof_irrel_heq _ _)).elim
        | black =>
          cases d <;>
            (rw [fixDB.eq_def]
             simp [preL, postL, inorder, List.append_assoc])
    | node c1 a kk b =>
      cases c1 with
      | red => exact (hnl a kk b rfl rfl (proof_irrel_heq _ _)).elim
      | black =>
        cases sr with
        | nil =>
          cases d <;>
            (rw [fixDB.eq_def]
             simp [preL, postL, inorder, List.append_assoc])
        | node c2 a2 kk2 b2 =>
          cases c2 with
          | red => exact (hnrr a2 kk2 b2 rfl rfl (proof_irrel_heq _ _)).elim
          | black =>
            cases d <;>
              (rw [fixDB.eq_def]
               simp [preL, postL, inorder, List.append_assoc])

theorem fixDB_inorder (p : Path) (s : Tree) :
    inorder (plug s (fixDB p)) = inorder (plug s p) := by
  rw [plug_inorder, plug_inorder, (fixDB_pre_post p).1, (fixDB_pre_post p).2]

theorem balanced_black_of_not_redRoot {t : Tree} {c : Color} {n : Nat}
    (h : Balanced t c n) (hr : redRoot t = false) : Balanced t black n := by
  cases h with
  | nil => exact Balanced.nil
  | red hl hr2 => simp [redRoot] at hr
  | black hl hr2 => exact Balanced.black hl hr2

theorem fixDB_ok : ∀ (p : Path), ∀ (ci : Color) (m : Nat),
    CtxB p ci (m + 1) → lastBlack p = true →
    ∀ (s : Tree), Balanced s black m →
    ∃ N, Balanced (plug s (fixDB p)) black N := by
  intro p
  induction p using fixDB.induct with
  | case1 =>
    intro ci m hctx hlast s hbs
    refine ⟨m, ?_⟩
    rw [fixDB.eq_def]
    simpa [plug] using hbs
  | case2 c p hs ih =>
    intro ci m hctx hlast s hbs
    obtain ⟨d, cc, k, sib⟩ := c
    simp only [Crumb.sib] at hs
    subst hs
    cases hctx with
    | redCrumb hp hsib => cases hsib
    | blackCrumb hp hsib => cases hsib
  | case3 c p sl sk sr hd hs ih =>
    intro ci m hctx hlast s hbs
    obtain ⟨d, cc, k, sib⟩ := c
    simp only [Crumb.sib] at hs
    simp only [Crumb.d] at hd
    subst hs
    subst hd
    simp only [Crumb.k] at ih
    cases hctx with
    | redCrumb hp hsib => cases hsib
    | blackCrumb hp hsib =>
      cases hsib with
      | red hsl hsr =>
        have hctx2 : CtxB (⟨Dir.R, red, k, sr⟩ :: ⟨Dir.R, black, sk, sl⟩ :: p)
            red (m + 1) :=
          CtxB.redCrumb (CtxB.blackCrumb hp hsl) hsr
        have hlast2 : lastBlack (⟨Dir.R, red, k, sr⟩ ::
            ⟨Dir.R, black, sk, sl⟩ :: p) = true := by
          cases p with
          | nil => rfl
          | cons a b => exact hlast
        obtain ⟨N, hN⟩ := ih red m hctx2 hlast2 s hbs
        refine ⟨N, ?_⟩
        rw [fixDB.eq_def]
        simpa using hN
  | case4 c p sl sk sr hd hs ih =>
    intro ci m hctx hlast s hbs
    obtain ⟨d, cc, k, sib⟩ := c
    simp only [Crumb.sib] at hs
    simp only [Crumb.d] at hd
    subst hs
    subst hd
    simp only [Crumb.k] at ih
    cases hctx with
    | redCrumb hp hsib => cases hsib
    | blackCrumb hp hsib =>
      cases hsib with
      | red hsl hsr =>
        have hctx2 : CtxB (⟨Dir.L, red, k, sl⟩ :: ⟨Dir.L, black, sk, sr⟩ :: p)
            red (m + 1) :=
          CtxB.redCrumb (CtxB.blackCrumb hp hsr) hsl
        have hlast2 : lastBlack (⟨Dir.L, red, k, sl⟩ ::
            ⟨Dir.L, black, sk, sr⟩ :: p) = true := by
          cases p with
          | nil => rfl
          | cons a b => exact hlast
        obtain ⟨N, hN⟩ := ih red m hctx2 hlast2 s hbs
        refine ⟨N, ?_⟩
        rw [fixDB.eq_def]
        simpa using hN
  | case5 c p sc sk sr hnr sll slk slr hs1 hd hs =>
    intro ci m hctx hlast s hbs
    obtain ⟨d, cc, k, sib⟩ := c
    simp only [Crumb.sib] at hs
    simp only [Crumb.d] at hd
    subst hs
    subst hd
    have hsc : sc = black := by
      cases sc with
      | red => exact absurd rfl hnr
      | black => rfl
    subst hsc
    cases hctx with
    | redCrumb hp hsib =>
      cases hsib with
      | black hbl hbr =>
        cases hbl with
        | red hbll hblr =>
          have hpne : p ≠ [] := by
            intro he
            subst he
            exact lastBlack_red_cons hlast
          have hA : Balanced (node red (node black sll slk slr) sk
              (node black sr k s)) red (m + 1) :=
            Balanced.red (Balanced.black hbll hblr) (Balanced.black hbr hbs)
          obtain ⟨N, hN⟩ := plug_balanced p black (m + 1) _ red hp hA
            (fun h => nomatch h) (lastBlack_of_cons hlast)
            (fun h => absurd h hpne)
          refine ⟨N, ?_⟩
          rw [fixDB.eq_def]
          simpa [plug, assemble] using hN
    | blackCrumb hp hsib =>
      cases hsib with
      | black hbl hbr =>
        cases hbl with
        | red hbll hblr =>
          have hA : Balanced (node black (node black sll slk slr) sk
              (node black sr k s)) black (m + 2) :=
            Balanced.black (Balanced.black hbll hblr) (Balanced.black hbr hbs)
          obtain ⟨N, hN⟩ := plug_balanced p _ (m + 2) _ black hp hA
            (fun _ => rfl) (lastBlack_of_cons hlast) (fun _ => rfl)
          refine ⟨N, ?_⟩
          rw [fixDB.eq_def]
          simpa [plug, assemble] using hN
  | case6 c p sc sk sr hnr sll slk slr hs1 hd hs =>
    intro ci m hctx hlast s hbs
    obtain ⟨d, cc, k, sib⟩ := c
    simp only [Crumb.sib] at hs
    simp only [Crumb.d] at hd
    subst hs
    subst hd
    have hsc : sc = black := by
      cases sc with
      | red => exact absurd rfl hnr
      | black => rfl
    subst hsc
    cases hctx with
    | redCrumb hp hsib =>
      cases hsib with
      | black hbl hbr =>
        cases hbl with
        | red hbll hblr =>
          have hpne : p ≠ [] := by
            intro he
            subst he
            exact lastBlack_red_cons hlast
          have hA : Balanced (node red (node black s k sll) slk
              (node black slr sk sr)) red (m + 1) :=
            Balanced.red (Balanced.black hbs hbll) (Balanced.black hblr hbr)
          obtain ⟨N, hN⟩ := plug_balanced p black (m + 1) _ red hp hA
            (fun h => nomatch h) (lastBlack_of_cons hlast)
            (fun h => absurd h hpne)
          refine ⟨N, ?_⟩
          rw [fixDB.eq_def]
          simpa [plug, assemble] using hN
    | blackCrumb hp hsib =>
      cases hsib with
      | black hbl hbr =>
        cases hbl with
        | red hbll hblr =>
          have hA : Balanced (node black (node black s k sll) slk
              (node black slr sk sr)) black (m + 2) :=
            Balanced.black (Balanced.black hbs hbll) (Balanced.black hblr hbr)
          obtain ⟨N, hN⟩ := plug_balanced p _ (m + 2) _ black hp hA
            (fun _ => rfl) (lastBlack_of_cons hlast) (fun _ => rfl)
          refine ⟨N, ?_⟩
          rw [fixDB.eq_def]
          simpa [plug, assemble] using hN
  | case7 c p sc sl sk hnr srl srk srr hd hs2 hs1 hs hnl =>
    intro ci m hctx hlast s hbs
    obtain ⟨d, cc, k, sib⟩ := c
    simp only [Crumb.sib] at hs
    simp only [Crumb.d] at hd
    subst hs
    subst hd
    have hsc : sc = black := by
      cases sc with
      | red => exact absurd rfl hnr
      | black => rfl
    subst hsc
    cases hctx with
    | redCrumb hp hsib =>
      cases hsib with
      | black hbl hbr =>
        cases hbr with
        | red hbrl hbrr =>
          have hpne : p ≠ [] := by
            intro he
            subst he
            exact lastBlack_red_cons hlast
          have hA : Balanced (node red (node black sl sk srl) srk
              (node black srr k s)) red (m + 1) :=
            Balanced.red (Balanced.black hbl hbrl) (Balanced.black hbrr hbs)
          obtain ⟨N, hN⟩ := plug_balanced p black (m + 1) _ red hp hA
            (fun h => nomatch h) (lastBlack_of_cons hlast)
            (fun h => absurd h hpne)
          refine ⟨N, ?_⟩
          cases sl with
          | nil =>
            rw [fixDB.eq_def]
            simpa [plug, assemble] using hN
          | node c1 a kk b =>
            cases c1 with
            | red => exact (hnl a kk b rfl rfl (proof_irrel_heq _ _)).elim
            | black =>
              rw [fixDB.eq_def]
              simpa [plug, assemble] using hN
    | blackCrumb hp hsib =>
      cases hsib with
      | black hbl hbr =>
        cases hbr with
        | red hbrl hbrr =>
          have hA : Balanced (node black (node black sl sk srl) srk
              (node black srr k s)) black (m + 2) :=
            Balanced.black (Balanced.black hbl hbrl) (Balanced.black hbrr hbs)
          obtain ⟨N, hN⟩ := plug_balanced p _ (m + 2) _ black hp hA
            (fun _ => rfl) (lastBlack_of_cons hlast) (fun _ => rfl)
          refine ⟨N, ?_⟩
          cases sl with
          | nil =>
            rw [fixDB.eq_def]
            simpa [plug, assemble] using hN
          | node c1 a kk b =>
            cases c1 with
            | red => exact (hnl a kk b rfl rfl (proof_irrel_heq _ _)).elim
            | black =>
              rw [fixDB.eq_def]
              simpa [plug, assemble] using hN
  | case8 c p sc sl sk hnr srl srk srr hd hs2 hs1 hs hnl =>
    intro ci m hctx hlast s hbs
    obtain ⟨d, cc, k, sib⟩ := c
    simp only [Crumb.sib] at hs
    simp only [Crumb.d] at hd
    subst hs
    subst hd
    have hsc : sc = black := by
      cases sc with
      | red => exact absurd rfl hnr
      | black => rfl
    subst hsc
    cases hctx with
    | redCrumb hp hsib =>
      cases hsib with
      | black hbl hbr =>
        cases hbr with
        | red hbrl hbrr =>
          have hpne : p ≠ [] := by
            intro he
            subst he
            exact lastBlack_red_cons hlast
          have hA : Balanced (node red (node black s k sl) sk
              (node black srl srk srr)) red (m + 1) :=
            Balanced.red (Balanced.black hbs hbl) (Balanced.black hbrl hbrr)
          obtain ⟨N, hN⟩ := plug_balanced p black (m + 1) _ red hp hA
            (fun h => nomatch h) (lastBlack_of_cons hlast)
            (fun h => absurd h hpne)
          refine ⟨N, ?_⟩
          cases sl with
          | nil =>
            rw [fixDB.eq_def]
            simpa [plug, assemble] using hN
          | node c1 a kk b =>
            cases c1 with
            | red => exact (hnl a kk b rfl rfl (proof_irrel_heq _ _)).elim
            | black =>
              rw [fixDB.eq_def]
              simpa [plug, assemble] using hN
    | blackCrumb hp hsib =>
      cases hsib with
      | black hbl hbr =>
        cases hbr with
        | red hbrl hbrr =>
          have hA : Balanced (node black (node black s k sl) sk
              (node black srl srk srr)) black (m + 2) :=
            Balanced.black (Balanced.black hbs hbl) (Balanced.black hbrl hbrr)
          obtain ⟨N, hN⟩ := plug_balanced p _ (m + 2) _ black hp hA
            (fun _ => rfl) (lastBlack_of_cons hlast) (fun _ => rfl)
          refine ⟨N, ?_⟩
          cases sl with
          | nil =>
            rw [fixDB.eq_def]
            simpa [plug, assemble] using hN
          | node c1 a kk b =>
            cases c1 with
            | red => exact (hnl a kk b rfl rfl (proof_irrel_heq _ _)).elim
            | black =>
              rw [fixDB.eq_def]
              simpa [plug, assemble] using hN
  | case9 c p sc sl sk sr hs2 hnr hcc hs1 hnl hs hnrr ih1 =>
    intro ci m hctx hlast s hbs
    obtain ⟨d, cc, k, sib⟩ := c
    simp only [Crumb.sib] at hs
    simp only [Crumb.c] at hcc
    subst hs
    subst hcc
    have hsc : sc = black := by
      cases sc with
      | red => exact absurd rfl hnr
      | black => rfl
    subst hsc
    have hslr : redRoot sl = false := by
      cases sl with
      | nil => rfl
      | node c1 a kk b =>
        cases c1 with
        | red => exact (hnl a kk b rfl rfl (proof_irrel_heq _ _)).elim
        | black => rfl
    have hsrr : redRoot sr = false := by
      cases sr with
      | nil => rfl
      | node c1 a kk b =>
        cases c1 with
        | red => exact (hnrr a kk b rfl rfl (proof_irrel_heq _ _)).elim
        | black => rfl
    have hred : fixDB (⟨d, black, k, node black sl sk sr⟩ :: p)
        = ⟨d, black, k, node red sl sk sr⟩ :: fixDB p := by
      cases sl with
      | nil =>
        cases sr with
        | nil =>
          rw [fixDB.eq_def]
          simp
        | node c2t a2 kk2 b2 =>
          cases c2t with
          | red => simp [redRoot] at hsrr
          | black =>
            rw [fixDB.eq_def]
            simp
      | node c1 a kk b =>
        cases c1 with
        | red => simp [redRoot] at hslr
        | black =>
          cases sr with
          | nil =>
            rw [fixDB.eq_def]
            simp
          | node c2t a2 kk2 b2 =>
            cases c2t with
            | red => simp [redRoot] at hsrr
            | black =>
              rw [fixDB.eq_def]
              simp
    cases hctx with
    | blackCrumb hp hsib =>
      cases hsib with
      | black hbl hbr =>
        have hbl2 := balanced_black_of_not_redRoot hbl hslr
        have hbr2 := balanced_black_of_not_redRoot hbr hsrr
        have hsib2 : Balanced (node red sl sk sr) red m :=
          Balanced.red hbl2 hbr2
        have hlast2 : lastBlack p = true := lastBlack_of_cons hlast
        rw [hred]
        cases d with
        | L =>
          obtain ⟨N, hN⟩ := ih1 _ (m + 1) hp hlast2
            (node black s k (node red sl sk sr)) (Balanced.black hbs hsib2)
          exact ⟨N, by simpa [plug, assemble] using hN⟩
        | R =>
          obtain ⟨N, hN⟩ := ih1 _ (m + 1) hp hlast2
            (node black (node red sl sk sr) k s) (Balanced.black hsib2 hbs)
          exact ⟨N, by simpa [plug, assemble] using hN⟩
  | case10 c p sc sl sk sr hs2 hnr hcc hs1 hnl hs hnrr =>
    intro ci m hctx hlast s hbs
    obtain ⟨d, cc, k, sib⟩ := c
    simp only [Crumb.sib] at hs
    simp only [Crumb.c] at hcc
    subst hs
    have hccr : cc = red := by
      cases cc with
      | red => rfl
      | black => exact absurd rfl hcc
    subst hccr
    have hsc : sc = black := by
      cases sc with
      | red => exact absurd rfl hnr
      | black => rfl
    subst hsc
    have hslr : redRoot sl = false := by
      cases sl with
      | nil => rfl
      | node c1 a kk b =>
        cases c1 with
        | red => exact (hnl a kk b rfl rfl (proof_irrel_heq _ _)).elim
        | black => rfl
    have hsrr : redRoot sr = false := by
      cases sr with
      | nil => rfl
      | node c1 a kk b =>
        cases c1 with
        | red => exact (hnrr a kk b rfl rfl (proof_irrel_heq _ _)).elim
        | black => rfl
    have hred : fixDB (⟨d, red, k, node black sl sk sr⟩ :: p)
        = ⟨d, black, k, node red sl sk sr⟩ :: p := by
      cases sl with
      | nil =>
        cases sr with
        | nil =>
          rw [fixDB.eq_def]
          simp
        | node c2t a2 kk2 b2 =>
          cases c2t with
          | red => simp [redRoot] at hsrr
          | black =>
            rw [fixDB.eq_def]
            simp
      | node c1 a kk b =>
        cases c1 with
        | red => simp [redRoot] at hslr
        | black =>
          cases sr with
          | nil =>
            rw [fixDB.eq_def]
            simp
          | node c2t a2 kk2 b2 =>
            cases c2t with
            | red => simp [redRoot] at hsrr
            | black =>
              rw [fixDB.eq_def]
              simp
    cases hctx with
    | redCrumb hp hsib =>
      cases hsib with
      | black hbl hbr =>
        have hbl2 := balanced_black_of_not_redRoot hbl hslr
        have hbr2 := balanced_black_of_not_redRoot hbr hsrr
        have hsib2 : Balanced (node red sl sk sr) red m :=
          Balanced.red hbl2 hbr2
        have hlast2 : lastBlack p = true := lastBlack_of_cons hlast
        rw [hred]
        cases d with
        | L =>
          have hA : Balanced (node black s k (node red sl sk sr)) black
              (m + 1) := Balanced.black hbs hsib2
          obtain ⟨N, hN⟩ := plug_balanced p black (m + 1) _ black hp hA
            (fun _ => rfl) hlast2 (fun _ => rfl)
          exact ⟨N, by simpa [plug, assemble] using hN⟩
        | R =>
          have hA : Balanced (node black (node red sl sk sr) k s) black
              (m + 1) := Balanced.black hsib2 hbs
          obtain ⟨N, hN⟩ := plug_balanced p black (m + 1) _ black hp hA
            (fun _ => rfl) hlast2 (fun _ => rfl)
          exact ⟨N, by simpa [plug, assemble] using hN⟩

theorem balanced_nil_of_black_zero {t : Tree} (h : Balanced t black 0) :
    t = nil := by
  cases h with
  | nil => rfl

theorem paintRed_balanced_zero {t : Tree} {c : Color} (h : Balanced t c 0) :
    paintRed t = t := by
  cases h with
  | nil => rfl
  | red hl hr => rfl

theorem setKey_balanced {t : Tree} {c : Color} {n : Nat} (k : Int)
    (h : Balanced t c n) : Balanced (setKey t k) c n := by
  cases h with
  | nil => exact Balanced.nil
  | red hl hr => exact Balanced.red hl hr
  | black hl hr => exact Balanced.black hl hr

theorem minZip_shape : ∀ (u : Tree), u ≠ nil → ∀ (q : Path),
    ∃ cm rm, (minZip u q).1 = node cm nil (minKey u) rm := by
  intro u
  induction u with
  | nil => intro h; exact absurd rfl h
  | node c l k r ihl _ =>
    intro _ q
    cases l with
    | nil => exact ⟨c, r, rfl⟩
    | node cl ll kl rl =>
      obtain ⟨cm, rm, hm⟩ := ihl (by intro h; nomatch h) (⟨Dir.L, c, k, r⟩ :: q)
      exact ⟨cm, rm, by simpa [minZip, minKey] using hm⟩

theorem minZip_preL : ∀ (u : Tree) (q : Path),
    preL (minZip u q).2 = preL q := by
  intro u
  induction u with
  | nil => intro q; rfl
  | node c l k r ihl _ =>
    intro q
    cases l with
    | nil => rfl
    | node cl ll kl rl =>
      have h := ihl (⟨Dir.L, c, k, r⟩ :: q)
      simp only [preL, Crumb.d] at h
      simpa [minZip] using h

theorem minZip_post : ∀ (u : Tree) (q : Path),
    inorder (minZip u q).1 ++ postL (minZip u q).2 = inorder u ++ postL q := by
  intro u
  induction u with
  | nil => intro q; rfl
  | node c l k r ihl _ =>
    intro q
    cases l with
    | nil => rfl
    | node cl ll kl rl =>
      have h := ihl (⟨Dir.L, c, k, r⟩ :: q)
      simp only [postL, Crumb.d, Crumb.k, Crumb.sib] at h
      simp only [minZip]
      rw [h]
      simp [inorder]

theorem minZip_ne_nil : ∀ (u : Tree) (q : Path), q ≠ [] →
    (minZip u q).2 ≠ [] := by
  intro u
  induction u with
  | nil => intro q h; exact h
  | node c l k r ihl _ =>
    intro q h
    cases l with
    | nil => exact h
    | node cl ll kl rl =>
      have h2 := ihl (⟨Dir.L, c, k, r⟩ :: q) (by intro hc; nomatch hc)
      simpa [minZip] using h2

theorem minZip_lastBlack : ∀ (u : Tree) (q : Path), q ≠ [] →
    lastBlack q = true → lastBlack (minZip u q).2 = true := by
  intro u
  induction u with
  | nil => intro q _ h; exact h
  | node c l k r ihl _ =>
    intro q hq h
    cases l with
    | nil => exact h
    | node cl ll kl rl =>
      cases q with
      | nil => exact absurd rfl hq
      | cons c2 q2 =>
        have h2 := ihl (⟨Dir.L, c, k, r⟩ :: c2 :: q2)
          (by intro hc; nomatch hc) h
        simpa [minZip] using h2

theorem minZip_ctx : ∀ (u : Tree) (q : Path) (cu ci : Color) (nu : Nat),
    Balanced u cu nu → CtxB q ci nu → (ci = red → cu = black) →
    ∃ cf cif nf, Balanced (minZip u q).1 cf nf ∧
      CtxB (minZip u q).2 cif nf ∧ (cif = red → cf = black) := by
  intro u
  induction u with
  | nil =>
    intro q cu ci nu hbal hctx hred
    exact ⟨cu, ci, nu, hbal, hctx, hred⟩
  | node c l k r ihl _ =>
    intro q cu ci nu hbal hctx hred
    cases l with
    | nil => exact ⟨cu, ci, nu, hbal, hctx, hred⟩
    | node cl ll kl rl =>
      cases hbal with
      | red hl hr =>
        have hci : ci = black := by
          cases ci with
          | red => exact absurd (hred rfl) (by decide)
          | black => rfl
        subst hci
        have h2 := ihl (⟨Dir.L, red, k, r⟩ :: q) black red nu hl
          (CtxB.redCrumb hctx hr) (fun _ => rfl)
        simpa [minZip] using h2
      | black hl hr =>
        rename_i n0 c1 c2
        have h2 := ihl (⟨Dir.L, black, k, r⟩ :: q) c1 black n0 hl
          (CtxB.blackCrumb hctx hr) (fun hc => nomatch hc)
        simpa [minZip] using h2

theorem findZ_plug : ∀ (t : Tree) (key : Int) (acc : Path) (n : Tree)
    (p : Path), findZ t key acc = some (n, p) → plug n p = plug t acc := by
  intro t
  induction t with
  | nil => intro key acc n p h; nomatch h
  | node c l k r ihl ihr =>
    intro key acc n p h
    simp only [findZ] at h
    by_cases h1 : key = k
    · rw [if_pos h1] at h
      simp only [Option.some.injEq, Prod.mk.injEq] at h
      obtain ⟨h2, h3⟩ := h
      subst h2
      subst h3
      rfl
    · rw [if_neg h1] at h
      by_cases h2 : key < k
      · rw [if_pos h2] at h
        have h3 := ihl key (⟨Dir.L, c, k, r⟩ :: acc) n p h
        simpa [plug, assemble] using h3
      · rw [if_neg h2] at h
        have h3 := ihr key (⟨Dir.R, c, k, l⟩ :: acc) n p h
        simpa [plug, assemble] using h3

theorem findZ_found : ∀ (t : Tree) (key : Int) (acc : Path) (n : Tree)
    (p : Path), findZ t key acc = some (n, p) →
    ∃ cn ln rn, n = node cn ln key rn := by
  intro t
  induction t with
  | nil => intro key acc n p h; nomatch h
  | node c l k r ihl ihr =>
    intro key acc n p h
    simp only [findZ] at h
    by_cases h1 : key = k
    · rw [if_pos h1] at h
      simp only [Option.some.injEq, Prod.mk.injEq] at h
      obtain ⟨h2, h3⟩ := h
      exact ⟨c, l, r, by rw [← h2, h1]⟩
    · rw [if_neg h1] at h
      by_cases h2 : key < k
      · rw [if_pos h2] at h
        exact ihl key _ n p h
      · rw [if_neg h2] at h
        exact ihr key _ n p h

theorem findZ_ctx : ∀ (t : Tree) (key : Int) (acc : Path) (n : Tree)
    (p : Path) (ct ci : Color) (nt : Nat),
    Balanced t ct nt → CtxB acc ci nt → (ci = red → ct = black) →
    lastBlack acc = true → (acc = [] → ct = black) →
    findZ t key acc = some (n, p) →
    ∃ cf cif nf, Balanced n cf nf ∧ CtxB p cif nf ∧
      (cif = red → cf = black) ∧ lastBlack p = true ∧
      (p = [] → cf = black) := by
  intro t
  induction t with
  | nil => intro key acc n p ct ci nt _ _ _ _ _ h; nomatch h
  | node c l k r ihl ihr =>
    intro key acc n p ct ci nt hbal hctx hred hlast hemp h
    simp only [findZ] at h
    by_cases h1 : key = k
    · rw [if_pos h1] at h
      simp only [Option.some.injEq, Prod.mk.injEq] at h
      obtain ⟨h2, h3⟩ := h
      subst h2
      subst h3
      exact ⟨ct, ci, nt, hbal, hctx, hred, hlast, hemp⟩
    · rw [if_neg h1] at h
      cases hbal with
      | red hl hr =>
        have hci : ci = black := by
          cases ci with
          | red => exact absurd (hred rfl) (by decide)
          | black => rfl
        subst hci
        by_cases h2 : key < k
        · rw [if_pos h2] at h
          have hlast2 : lastBlack (⟨Dir.L, red, k, r⟩ :: acc) = true := by
            cases acc with
            | nil => exact absurd (hemp rfl) (by decide)
            | cons c2 q2 => exact hlast
          exact ihl key _ n p black red nt hl (CtxB.redCrumb hctx hr)
            (fun _ => rfl) hlast2 (fun hc => nomatch hc) h
        · rw [if_neg h2] at h
          have hlast2 : lastBlack (⟨Dir.R, red, k, l⟩ :: acc) = true := by
            cases acc with
            | nil => exact absurd (hemp rfl) (by decide)
            | cons c2 q2 => exact hlast
          exact ihr key _ n p black red nt hr (CtxB.redCrumb hctx hl)
            (fun _ => rfl) hlast2 (fun hc => nomatch hc) h
      | black hl hr =>
        rename_i n0 c1 c2
        by_cases h2 : key < k
        · rw [if_pos h2] at h
          have hlast2 : lastBlack (⟨Dir.L, black, k, r⟩ :: acc) = true := by
            cases acc with
            | nil => rfl
            | cons c2' q2 => exact hlast
          exact ihl key _ n p c1 black n0 hl (CtxB.blackCrumb hctx hr)
            (fun hc => nomatch hc) hlast2 (fun hc => nomatch hc) h
        · rw [if_neg h2] at h
          have hlast2 : lastBlack (⟨Dir.R, black, k, l⟩ :: acc) = true := by
            cases acc with
            | nil => rfl
            | cons c2' q2 => exact hlast
          exact ihr key _ n p c2 black n0 hr (CtxB.blackCrumb hctx hl)
            (fun hc => nomatch hc) hlast2 (fun hc => nomatch hc) h

theorem findZ_mem : ∀ (t : Tree) (key : Int) (acc : Path), inv5BST t →
    key ∈ inorder t → (findZ t key acc).isSome = true := by
  intro t
  induction t with
  | nil => intro key acc _ h; simp [inorder] at h
  | node c l k r ihl ihr =>
    intro key acc hs hmem
    obtain ⟨hsl, hsr, hbl, hbr⟩ := sorted_node hs
    simp only [findZ]
    by_cases h1 : key = k
    · rw [if_pos h1]; rfl
    · rw [if_neg h1]
      simp only [inorder, List.mem_append, List.mem_cons] at hmem
      rcases hmem with hm | hm | hm
      · rw [if_pos (hbl key hm)]
        exact ihl key _ hsl hm
      · exact absurd hm h1
      · have hkk : k < key := hbr key hm
        rw [if_neg (by omega)]
        exact ihr key _ hsr hm

theorem delete_helper_ok : ∀ (sz : Nat) (cn : Color) (ln rn : Tree)
    (kn : Int) (p : Path) (cf ci : Color) (nf : Nat),
    tsize (node cn ln kn rn) ≤ sz →
    Balanced (node cn ln kn rn) cf nf →
    CtxB p ci nf → (ci = red → cf = black) →
    lastBlack p = true → (p = [] → cf = black) →
    (∃ N, Balanced (delete_helper (node cn ln kn rn) p) black N) ∧
    inorder (delete_helper (node cn ln kn rn) p)
      = preL p ++ (inorder ln ++ inorder rn) ++ postL p := by
  intro sz
  induction sz with
  | zero =>
    intro cn ln rn kn p cf ci nf hsz hbal hctx hred hlast hemp
    simp only [tsize] at hsz
    omega
  | succ sz ih =>
    intro cn ln rn kn p cf ci nf hsz hbal hctx hred hlast hemp
    by_cases hlf : ln = nil ∧ rn = nil
    · obtain ⟨h1, h2⟩ := hlf
      subst h1
      subst h2
      cases hbal with
      | red hl hr =>
        cases hl
        cases p with
        | nil => exact absurd (hemp rfl) (by decide)
        | cons c0 p2 =>
          have hci : ci = black := by
            cases ci with
            | red => exact absurd (hred rfl) (by decide)
            | black => rfl
          subst hci
          obtain ⟨d0, cc0, k0, sib0⟩ := c0
          cases hctx with
          | blackCrumb hp hsib =>
            have hpr : paintRed sib0 = sib0 := paintRed_balanced_zero hsib
            have hdh : delete_helper (node red nil kn nil)
                (⟨d0, black, k0, sib0⟩ :: p2)
                = plug nil (⟨d0, black, k0, paintRed sib0⟩ :: p2) := by
              rw [delete_helper.eq_def]
              simp
            rw [hdh, hpr]
            constructor
            · exact plug_balanced (⟨d0, black, k0, sib0⟩ :: p2) black 0 nil
                black (CtxB.blackCrumb hp hsib) Balanced.nil (fun _ => rfl)
                hlast (fun hc => nomatch hc)
            · rw [plug_inorder]
              simp [inorder]
      | black hl hr =>
        cases hl
        cases hr
        cases p with
        | nil =>
          have hdh : delete_helper (node black nil kn nil) [] = nil := by
            rw [delete_helper.eq_def]
            simp
          rw [hdh]
          exact ⟨⟨0, Balanced.nil⟩, by simp [inorder, preL, postL]⟩
        | cons c0 p2 =>
          have hdh : delete_helper (node black nil kn nil) (c0 :: p2)
              = plug nil (fixDB (c0 :: p2)) := by
            rw [delete_helper.eq_def]
            simp
          rw [hdh]
          constructor
          · exact fixDB_ok (c0 :: p2) ci 0 hctx hlast nil Balanced.nil
          · rw [plug_inorder, (fixDB_pre_post (c0 :: p2)).1,
              (fixDB_pre_post (c0 :: p2)).2]
            simp [inorder]
    · by_cases honc : ln = nil ∨ rn = nil
      · rcases honc with h1 | h1
        · subst h1
          have hrn : rn ≠ nil := by
            intro hc
            exact hlf ⟨rfl, hc⟩
          cases hbal with
          | red hl hr =>
            cases hl
            exact absurd (balanced_nil_of_black_zero hr) hrn
          | black hl hr =>
            cases hl
            cases hr with
            | nil => exact absurd rfl hrn
            | red hl2 hr2 =>
              rename_i rl2 rr2 kr2
              have h3 := balanced_nil_of_black_zero hl2
              have h4 := balanced_nil_of_black_zero hr2
              subst h3
              subst h4
              cases p with
              | nil =>
                have hdh : delete_helper
                    (node black nil kn (node red nil kr2 nil)) []
                    = node black nil kr2 nil := by
                  rw [delete_helper.eq_def]
                  simp [rootKey]
                rw [hdh]
                refine ⟨⟨1, Balanced.black Balanced.nil Balanced.nil⟩, ?_⟩
                simp [inorder, preL, postL]
              | cons c0 p2 =>
                have hdh : delete_helper
                    (node black nil kn (node red nil kr2 nil)) (c0 :: p2)
                    = plug (paintBlack (node red nil kr2 nil)) (c0 :: p2) := by
                  rw [delete_helper.eq_def]
                  simp [rootColor]
                rw [hdh]
                constructor
                · exact plug_balanced (c0 :: p2) ci _ _ black hctx
                    (paintBlack_balanced_red
                      (Balanced.red Balanced.nil Balanced.nil))
                    (fun _ => rfl) hlast (fun hc => nomatch hc)
                · rw [plug_inorder, inorder_paintBlack]
                  simp [inorder]
        · subst h1
          have hln : ln ≠ nil := by
            intro hc
            exact hlf ⟨hc, rfl⟩
          cases hbal with
          | red hl hr =>
            cases hr
            exact absurd (balanced_nil_of_black_zero hl) hln
          | black hl hr =>
            cases hr
            cases hl with
            | nil => exact absurd rfl hln
            | red hl2 hr2 =>
              rename_i ll2 lr2 kl2
              have h3 := balanced_nil_of_black_zero hl2
              have h4 := balanced_nil_of_black_zero hr2
              subst h3
              subst h4
              cases p with
              | nil =>
                have hdh : delete_helper
                    (node black (node red nil kl2 nil) kn nil) []
                    = node black nil kl2 nil := by
                  rw [delete_helper.eq_def]
                  simp [rootKey]
                rw [hdh]
                refine ⟨⟨1, Balanced.black Balanced.nil Balanced.nil⟩, ?_⟩
                simp [inorder, preL, postL]
              | cons c0 p2 =>
                have hdh : delete_helper
                    (node black (node red nil kl2 nil) kn nil) (c0 :: p2)
                    = plug (paintBlack (node red nil kl2 nil)) (c0 :: p2) := by
                  rw [delete_helper.eq_def]
                  simp [rootColor]
                rw [hdh]
                constructor
                · exact plug_balanced (c0 :: p2) ci _ _ black hctx
                    (paintBlack_balanced_red
                      (Balanced.red Balanced.nil Balanced.nil))
                    (fun _ => rfl) hlast (fun hc => nomatch hc)
                · rw [plug_inorder, inorder_paintBlack]
                  simp [inorder]
      · have hln : ln ≠ nil := fun hc => honc (Or.inl hc)
        have hrn : rn ≠ nil := fun hc => honc (Or.inr hc)
        have hdh : delete_helper (node cn ln kn rn) p
            = delete_helper
              (setKey (minZip rn (⟨Dir.R, cn, minKey rn, ln⟩ :: p)).1 kn)
              (minZip rn (⟨Dir.R, cn, minKey rn, ln⟩ :: p)).2 := by
          rw [delete_helper.eq_def]
          simp [hln, hrn]
        have hstep : ∃ cu ci0 nu, Balanced rn cu nu ∧
            CtxB (⟨Dir.R, cn, minKey rn, ln⟩ :: p) ci0 nu ∧
            (ci0 = red → cu = black) := by
          cases hbal with
          | red hl hr =>
            have hci : ci = black := by
              cases ci with
              | red => exact absurd (hred rfl) (by decide)
              | black => rfl
            subst hci
            exact ⟨black, red, nf, hr, CtxB.redCrumb hctx hl, fun _ => rfl⟩
          | black hl hr =>
            rename_i n0 c1 c2
            exact ⟨c2, black, n0, hr, CtxB.blackCrumb hctx hl,
              fun hc => nomatch hc⟩
        have hq0last : lastBlack (⟨Dir.R, cn, minKey rn, ln⟩ :: p) = true := by
          cases p with
          | nil =>
            have h5 := hemp rfl
            have h6 := balanced_rootColor hbal
            simp only [rootColor] at h6
            simp [lastBlack, h6.trans h5]
          | cons c2 q2 => exact hlast
        have hq0ne : (⟨Dir.R, cn, minKey rn, ln⟩ :: p) ≠ ([] : Path) := by
          intro hc
          nomatch hc
        obtain ⟨cu, ci0, nu, hbrn, hq0, hred0⟩ := hstep
        obtain ⟨cf2, cif2, nf2, hbm, hcq, hred2⟩ :=
          minZip_ctx rn (⟨Dir.R, cn, minKey rn, ln⟩ :: p) cu ci0 nu hbrn
            hq0 hred0
        obtain ⟨cm, rm, hm⟩ :=
          minZip_shape rn hrn (⟨Dir.R, cn, minKey rn, ln⟩ :: p)
        have hqlast := minZip_lastBlack rn _ hq0ne hq0last
        have hqne := minZip_ne_nil rn _ hq0ne
        have hbm2 : Balanced (node cm nil kn rm) cf2 nf2 := by
          have h7 := setKey_balanced kn hbm
          rw [hm] at h7
          simpa [setKey] using h7
        have hsz2 : tsize (node cm nil kn rm) ≤ sz := by
          have h8 := minZip_tsize rn (⟨Dir.R, cn, minKey rn, ln⟩ :: p)
          rw [hm] at h8
          simp only [tsize] at h8 hsz ⊢
          omega
        obtain ⟨⟨N, hN⟩, hio⟩ := ih cm nil rm kn
          (minZip rn (⟨Dir.R, cn, minKey rn, ln⟩ :: p)).2 cf2 cif2 nf2 hsz2
          hbm2 hcq hred2 hqlast (fun hc => absurd hc hqne)
        have hsk : setKey (minZip rn (⟨Dir.R, cn, minKey rn, ln⟩ :: p)).1 kn
            = node cm nil kn rm := by
          rw [hm]
          rfl
        rw [hdh, hsk]
        refine ⟨⟨N, hN⟩, ?_⟩
        rw [hio]
        have e1 : preL (minZip rn (⟨Dir.R, cn, minKey rn, ln⟩ :: p)).2
            = preL p ++ (inorder ln ++ [minKey rn]) := by
          rw [minZip_preL]
          simp [preL]
        have e2 := minZip_post rn (⟨Dir.R, cn, minKey rn, ln⟩ :: p)
        rw [hm] at e2
        simp only [inorder, postL, Crumb.d, Crumb.k, Crumb.sib,
          List.nil_append, List.cons_append, List.append_nil] at e2
        rw [e1]
        simp only [inorder, List.append_assoc, List.cons_append,
          List.nil_append, List.singleton_append]
        rw [e2]

theorem sorted_nodup {l : List Int} (h : List.Sorted (· < ·) l) :
    l.Nodup :=
  List.Pairwise.imp (fun hab => ne_of_lt hab) h

theorem delete_ok (t : Tree) (k : Int) (h : ValidRB t) :
    ValidRB (deleteTree t k) ∧
    inorder (deleteTree t k) = (inorder t).erase k := by
  cases t with
  | nil =>
    have hnil : deleteTree nil k = nil := rfl
    rw [hnil]
    exact ⟨by decide, by simp [inorder]⟩
  | node c l kk r =>
    by_cases hk : k ∈ inorder (node c l kk r)
    · have hf : (findZ (node c l kk r) k []).isSome = true :=
        findZ_mem _ k [] h.2.2.2 hk
      obtain ⟨⟨n, p⟩, hfz⟩ := Option.isSome_iff_exists.mp hf
      obtain ⟨cn2, ln2, rn2, hn⟩ := findZ_found _ k [] n p hfz
      obtain ⟨nb, hb⟩ := validRB_balanced h
      obtain ⟨cfx, cix, nfx, hbn, hcp, hredx, hlastx, hempx⟩ :=
        findZ_ctx _ k [] n p black black nb hb CtxB.nil (fun _ => rfl) rfl
          (fun _ => rfl) hfz
      subst hn
      obtain ⟨⟨N, hN⟩, hio⟩ := delete_helper_ok (tsize (node cn2 ln2 k rn2))
        cn2 ln2 rn2 k p cfx cix nfx (le_refl _) hbn hcp hredx hlastx hempx
      have hdt : deleteTree (node c l kk r) k
          = delete_helper (node cn2 ln2 k rn2) p := by
        simp [deleteTree, delete_node, hfz]
      have hplug : plug (node cn2 ln2 k rn2) p = node c l kk r := by
        have h8 := findZ_plug _ k [] _ p hfz
        simpa [plug] using h8
      have horig : inorder (node c l kk r)
          = (preL p ++ inorder ln2) ++ k :: (inorder rn2 ++ postL p) := by
        rw [← hplug, plug_inorder]
        simp [inorder, List.append_assoc]
      have hsort : List.Sorted (· < ·) (inorder (node c l kk r)) := h.2.2.2
      have hknotin : k ∉ (preL p ++ inorder ln2) := by
        intro hmem
        have h10 := hsort
        rw [horig, List.Sorted, List.pairwise_append] at h10
        have h11 := h10.2.2 k hmem k (List.mem_cons_self _ _)
        omega
      have herase : (inorder (node c l kk r)).erase k
          = (preL p ++ inorder ln2) ++ (inorder rn2 ++ postL p) := by
        rw [horig, List.erase_append_right _ hknotin, List.erase_cons_head]
      constructor
      · rw [hdt]
        refine balanced_validRB hN ?_
        unfold inv5BST
        rw [hio]
        have hsub : List.Sublist
            (preL p ++ (inorder ln2 ++ inorder rn2) ++ postL p)
            (inorder (node c l kk r)) := by
          rw [horig]
          simp only [List.append_assoc]
          refine List.Sublist.append (List.Sublist.refl _) ?_
          refine List.Sublist.append (List.Sublist.refl _) ?_
          exact List.sublist_cons_self _ _
        exact List.Pairwise.sublist hsub hsort
      · rw [hdt, hio, herase]
        simp [List.append_assoc]
    · have hf : findZ (node c l kk r) k [] = none := findZ_none _ k [] hk
      have hdt : deleteTree (node c l kk r) k = node c l kk r := by
        simp [deleteTree, delete_node, hf]
      rw [hdt]
      exact ⟨h, (List.erase_of_not_mem hk).symm⟩

theorem applyOps_valid : ∀ (os : List Op) (t t2 : Tree), ValidRB t →
    applyOps t os = some t2 → ValidRB t2 := by
  intro os
  induction os with
  | nil =>
    intro t t2 h hap
    simp only [applyOps, Option.some.injEq] at hap
    rw [← hap]
    exact h
  | cons o os ihos =>
    intro t t2 h hap
    simp only [applyOps] at hap
    cases o with
    | ins k =>
      obtain ⟨t1, hi, hv1, _⟩ := insert_ok t k h
      simp only [applyOp, hi, Option.some_bind] at hap
      exact ihos t1 t2 hv1 hap
    | del k =>
      simp only [applyOp, Option.some_bind] at hap
      exact ihos _ t2 (delete_ok t k h).1 hap

/-- Claim C1: for every tree satisfying red-black invariants 1-5 and every
key, a completed `insert_node` (which always completes on a valid tree) and
a completed `delete_node` again yield a tree satisfying invariants 1-5;
hence the invariants hold after each operation of any sequence of inserts
and deletes starting from a valid tree. -/
theorem claim1_invariants_preserved :
    (∀ (t : Tree) (k : Int), ValidRB t →
      ∃ t2, insert_node t k = some t2 ∧ ValidRB t2) ∧
    (∀ (t : Tree) (k : Int), ValidRB t → ValidRB (deleteTree t k)) ∧
    (∀ (os : List Op) (t t2 : Tree), ValidRB t → applyOps t os = some t2 →
      ValidRB t2) :=
  ⟨fun t k h => (insert_ok t k h).imp (fun _ h2 => ⟨h2.1, h2.2.1⟩),
   fun t k h => (delete_ok t k h).1,
   fun os t t2 h hap => applyOps_valid os t t2 h hap⟩

theorem claim1_invariants_preserved_witness :
    ValidRB exTree ∧ ValidRB (deleteTree exTree 5) :=
  ⟨by decide, claim1_invariants_preserved.2.1 exTree 5 (by decide)⟩

theorem insertAll_ok : ∀ (ks : List Int) (t : Tree), ValidRB t →
    ∃ t2, insertAll t ks = some t2 ∧ ValidRB t2 ∧
      (∀ x, x ∈ inorder t2 ↔ (x ∈ ks ∨ x ∈ inorder t)) := by
  intro ks
  induction ks with
  | nil =>
    intro t h
    exact ⟨t, rfl, h, fun x => by simp⟩
  | cons k ks ihk =>
    intro t h
    obtain ⟨t1, hi, hv1, hm1⟩ := insert_ok t k h
    obtain ⟨t2, hi2, hv2, hm2⟩ := ihk t1 hv1
    refine ⟨t2, ?_, hv2, fun x => ?_⟩
    · simp only [insertAll, hi, Option.some_bind]
      exact hi2
    · rw [hm2 x, hm1 x]
      simp only [List.mem_cons]
      tauto

theorem deleteAll_ok : ∀ (ds : List Int) (t : Tree), ValidRB t →
    presentAll t ds = true →
    ValidRB (deleteAll t ds) ∧
    (∀ x, x ∈ inorder (deleteAll t ds) ↔ (x ∈ inorder t ∧ x ∉ ds)) := by
  intro ds
  induction ds with
  | nil =>
    intro t h _
    exact ⟨h, fun x => by simp [deleteAll]⟩
  | cons d ds ihd =>
    intro t h hpres
    simp only [presentAll, Bool.and_eq_true, decide_eq_true_eq] at hpres
    obtain ⟨hdmem, hpres2⟩ := hpres
    obtain ⟨hv1, he1⟩ := delete_ok t d h
    obtain ⟨hv2, hm2⟩ := ihd (deleteTree t d) hv1 hpres2
    refine ⟨hv2, fun x => ?_⟩
    rw [show deleteAll t (d :: ds) = deleteAll (deleteTree t d) ds from rfl]
    rw [hm2 x, he1]
    have hnd : (inorder t).Nodup := sorted_nodup h.2.2.2
    rw [List.Nodup.mem_erase_iff hnd]
    simp only [List.mem_cons]
    tauto

/-- Claim C2: for every tree built by a sequence of inserts starting from
the empty tree and then subjected to a sequence of deletes of keys present
at the time of each delete, the in-order traversal stays strictly sorted
after the deletes and the key set is exactly the inserted keys minus the
deleted ones (each delete removes exactly the requested key). -/
theorem claim2_inserts_then_deletes :
    ∀ (ks ds : List Int) (t : Tree), insertAll nil ks = some t →
    presentAll t ds = true →
    inv5BST t ∧ (∀ x, x ∈ inorder t ↔ x ∈ ks) ∧
    ValidRB (deleteAll t ds) ∧ inv5BST (deleteAll t ds) ∧
    (∀ x, x ∈ inorder (deleteAll t ds) ↔ (x ∈ ks ∧ x ∉ ds)) := by
  intro ks ds t hins hpres
  obtain ⟨t2, hi2, hv2, hm2⟩ := insertAll_ok ks nil (by decide)
  rw [hins] at hi2
  have ht : t = t2 := Option.some.inj hi2
  subst ht
  obtain ⟨hvd, hmd⟩ := deleteAll_ok ds t hv2 hpres
  refine ⟨hv2.2.2.2, fun x => ?_, hvd, hvd.2.2.2, fun x => ?_⟩
  · rw [hm2 x]
    simp [inorder]
  · rw [hmd x, hm2 x]
    simp [inorder]

theorem claim2_inserts_then_deletes_witness :
    insertAll nil [10, 5, 15] = some exTree ∧
    presentAll exTree [5] = true ∧
    (inv5BST exTree ∧ (∀ x, x ∈ inorder exTree ↔ x ∈ [10, 5, 15]) ∧
      ValidRB (deleteAll exTree [5]) ∧ inv5BST (deleteAll exTree [5]) ∧
      (∀ x, x ∈ inorder (deleteAll exTree [5]) ↔
        (x ∈ [10, 5, 15] ∧ x ∉ [5]))) :=
  ⟨by simp [insertAll, insert_node, search_tree, search_helper, descendPath,
      fixInsert, plug, assemble, paintBlack, exTree],
   by decide,
   claim2_inserts_then_deletes [10, 5, 15] [5] exTree
     (by simp [insertAll, insert_node, search_tree, search_helper,
       descendPath, fixInsert, plug, assemble, paintBlack, exTree])
     (by decide)⟩

theorem fixDBCount_red_crumb (d : Dir) (k : Int) (x z : Tree) (y : Int)
    (rest : Path) :
    fixDBCount (⟨d, red, k, node black x y z⟩ :: rest) = 1 := by
  rw [fixDBCount.eq_def]
  cases x with
  | nil =>
    cases z with
    | nil => simp
    | node cz az kz bz => cases cz <;> simp
  | node cx ax kx bx =>
    cases cx with
    | red => simp
    | black =>
      cases z with
      | nil => simp
      | node cz az kz bz => cases cz <;> simp

theorem fixDBCount_bound : ∀ (p : Path) (ci : Color) (m : Nat),
    CtxB p ci (m + 1) → fixDBCount p ≤ p.length + 1 := by
  intro p
  induction p using fixDBCount.induct with
  | case1 =>
    intro ci m hctx
    rw [fixDBCount.eq_def]
    simp
  | case2 c p hs ih =>
    intro ci m hctx
    obtain ⟨d, cc, k, sib⟩ := c
    simp only [Crumb.sib] at hs
    subst hs
    cases hctx with
    | redCrumb hp hsib => cases hsib
    | blackCrumb hp hsib => cases hsib
  | case3 c p sl sk sr hd hs ih =>
    intro ci m hctx
    obtain ⟨d, cc, k, sib⟩ := c
    simp only [Crumb.sib] at hs
    simp only [Crumb.d] at hd
    subst hs
    subst hd
    cases hctx with
    | redCrumb hp hsib => cases hsib
    | blackCrumb hp hsib =>
      cases hsib with
      | red hsl hsr =>
        cases hsr with
        | black hx hz =>
          rw [fixDBCount.eq_def]
          simp [fixDBCount_red_crumb, List.length_cons]
  | case4 c p sl sk sr hd hs ih =>
    intro ci m hctx
    obtain ⟨d, cc, k, sib⟩ := c
    simp only [Crumb.sib] at hs
    simp only [Crumb.d] at hd
    subst hs
    subst hd
    cases hctx with
    | redCrumb hp hsib => cases hsib
    | blackCrumb hp hsib =>
      cases hsib with
      | red hsl hsr =>
        cases hsl with
        | black hx hz =>
          rw [fixDBCount.eq_def]
          simp [fixDBCount_red_crumb, List.length_cons]
  | case5 c p sc sk sr hnr sll slk slr hs1 hs2 =>
    intro ci m hctx
    obtain ⟨d, cc, k, sib⟩ := c
    simp only [Crumb.sib] at hs1
    subst hs1
    have hsc : sc = black := by
      cases sc with
      | red => exact absurd rfl hnr
      | black => rfl
    subst hsc
    have h1 : fixDBCount
        (⟨d, cc, k, node black (node red sll slk slr) sk sr⟩ :: p) = 1 := by
      rw [fixDBCount.eq_def]
      simp
    rw [h1]
    simp only [List.length_cons]
    omega
  | case6 c p sc sl sk hnr srl srk srr hs1 hs2 hs hnl =>
    intro ci m hctx
    obtain ⟨d, cc, k, sib⟩ := c
    simp only [Crumb.sib] at hs1
    subst hs1
    have hsc : sc = black := by
      cases sc with
      | red => exact absurd rfl hnr
      | black => rfl
    subst hsc
    have h1 : fixDBCount
        (⟨d, cc, k, node black sl sk (node red srl srk srr)⟩ :: p) = 1 := by
      cases sl with
      | nil =>
        rw [fixDBCount.eq_def]
        simp
      | node c1 a kk b =>
        cases c1 with
        | red => exact (hnl a kk b rfl rfl (proof_irrel_heq _ _)).elim
        | black =>
          rw [fixDBCount.eq_def]
          simp
    rw [h1]
    simp only [List.length_cons]
    omega
  | case7 c p sc sl sk sr hs2 hnr hcc hs1 hnl hs hnrr ih1 =>
    intro ci m hctx
    obtain ⟨d, cc, k, sib⟩ := c
    simp only [Crumb.sib] at hs
    simp only [Crumb.c] at hcc
    subst hs
    subst hcc
    have hsc : sc = black := by
      cases sc with
      | red => exact absurd rfl hnr
      | black => rfl
    subst hsc
    have hslr : redRoot sl = false := by
      cases sl with
      | nil => rfl
      | node c1 a kk b =>
        cases c1 with
        | red => exact (hnl a kk b rfl rfl (proof_irrel_heq _ _)).elim
        | black => rfl
    have hsrr : redRoot sr = false := by
      cases sr with
      | nil => rfl
      | node c1 a kk b =>
        cases c1 with
        | red => exact (hnrr a kk b rfl rfl (proof_irrel_heq _ _)).elim
        | black => rfl
    have hcount : fixDBCount (⟨d, black, k, node black sl sk sr⟩ :: p)
        = 1 + fixDBCount p := by
      cases sl with
      | nil =>
        cases sr with
        | nil =>
          rw [fixDBCount.eq_def]
          simp
        | node c2t a2 kk2 b2 =>
          cases c2t with
          | red => simp [redRoot] at hsrr
          | black =>
            rw [fixDBCount.eq_def]
            simp
      | node c1 a kk b =>
        cases c1 with
        | red => simp [redRoot] at hslr
        | black =>
          cases sr with
          | nil =>
            rw [fixDBCount.eq_def]
            simp
          | node c2t a2 kk2 b2 =>
            cases c2t with
            | red => simp [redRoot] at hsrr
            | black =>
              rw [fixDBCount.eq_def]
              simp
    rw [hcount]
    cases hctx with
    | blackCrumb hp hsib =>
      have hb := ih1 _ (m + 1) hp
      simp only [List.length_cons]
      omega
  | case8 c p sc sl sk sr hs2 hnr hcc hs1 hnl hs hnrr =>
    intro ci m hctx
    obtain ⟨d, cc, k, sib⟩ := c
    simp only [Crumb.sib] at hs
    simp only [Crumb.c] at hcc
    subst hs
    have hccr : cc = red := by
      cases cc with
      | red => rfl
      | black => exact absurd rfl hcc
    subst hccr
    have hsc : sc = black := by
      cases sc with
      | red => exact absurd rfl hnr
      | black => rfl
    subst hsc
    have hslr : redRoot sl = false := by
      cases sl with
      | nil => rfl
      | node c1 a kk b =>
        cases c1 with
        | red => exact (hnl a kk b rfl rfl (proof_irrel_heq _ _)).elim
        | black => rfl
    have hsrr : redRoot sr = false := by
      cases sr with
      | nil => rfl
      | node c1 a kk b =>
        cases c1 with
        | red => exact (hnrr a kk b rfl rfl (proof_irrel_heq _ _)).elim
        | black => rfl
    have hcount : fixDBCount (⟨d, red, k, node black sl sk sr⟩ :: p)
        = 1 := by
      cases sl with
      | nil =>
        cases sr with
        | nil =>
          rw [fixDBCount.eq_def]
          simp
        | node c2t a2 kk2 b2 =>
          cases c2t with
          | red => simp [redRoot] at hsrr
          | black =>
            rw [fixDBCount.eq_def]
            simp
      | node c1 a kk b =>
        cases c1 with
        | red => simp [redRoot] at hslr
        | black =>
          cases sr with
          | nil =>
            rw [fixDBCount.eq_def]
            simp
          | node c2t a2 kk2 b2 =>
            cases c2t with
            | red => simp [redRoot] at hsrr
            | black =>
              rw [fixDBCount.eq_def]
              simp
    rw [hcount]
    simp

theorem minZip_height : ∀ (u : Tree) (q : Path),
    (minZip u q).2.length + height (minZip u q).1 ≤ q.length + height u := by
  intro u
  induction u with
  | nil => intro q; simp [minZip]
  | node c l k r ihl _ =>
    intro q
    cases l with
    | nil => simp [minZip]
    | node cl ll kl rl =>
      have h := ihl (⟨Dir.L, c, k, r⟩ :: q)
      simp only [List.length_cons] at h
      have h2 : height (node cl ll kl rl) + 1
          ≤ height (node c (node cl ll kl rl) k r) := by
        simp only [height]
        have h3 := Nat.le_max_left (max (height ll) (height rl) + 1) (height r)
        omega
      have h4 : minZip (node c (node cl ll kl rl) k r) q
          = minZip (node cl ll kl rl) (⟨Dir.L, c, k, r⟩ :: q) := rfl
      rw [h4]
      omega

theorem findZ_height : ∀ (t : Tree) (key : Int) (acc : Path) (n : Tree)
    (p : Path), findZ t key acc = some (n, p) →
    p.length + height n ≤ acc.length + height t := by
  intro t
  induction t with
  | nil => intro key acc n p h; nomatch h
  | node c l k r ihl ihr =>
    intro key acc n p h
    simp only [findZ] at h
    by_cases h1 : key = k
    · rw [if_pos h1] at h
      simp only [Option.some.injEq, Prod.mk.injEq] at h
      obtain ⟨h2, h3⟩ := h
      subst h2
      subst h3
      exact le_refl _
    · rw [if_neg h1] at h
      by_cases h2 : key < k
      · rw [if_pos h2] at h
        have h3 := ihl key (⟨Dir.L, c, k, r⟩ :: acc) n p h
        simp only [List.length_cons] at h3
        have h4 : height l + 1 ≤ height (node c l k r) := by
          simp only [height]
          have h5 := Nat.le_max_left (height l) (height r)
          omega
        omega
      · rw [if_neg h2] at h
        have h3 := ihr key (⟨Dir.R, c, k, l⟩ :: acc) n p h
        simp only [List.length_cons] at h3
        have h4 : height r + 1 ≤ height (node c l k r) := by
          simp only [height]
          have h5 := Nat.le_max_right (height l) (height r)
          omega
        omega

theorem delDepth_le_two : ∀ (t : Tree) (p : Path), delDepth t p ≤ 2 := by
  intro t p
  cases t with
  | nil =>
    rw [delDepth.eq_def]
    simp
  | node cn ln kn rn =>
    by_cases hlf : ln = nil ∧ rn = nil
    · obtain ⟨h1, h2⟩ := hlf
      subst h1
      subst h2
      rw [delDepth.eq_def]
      simp
    · by_cases honc : ln = nil ∨ rn = nil
      · rcases honc with h1 | h1
        · subst h1
          rw [delDepth.eq_def]
          simp
        · subst h1
          rw [delDepth.eq_def]
          simp
      · have hln : ln ≠ nil := fun hc => honc (Or.inl hc)
        have hrn : rn ≠ nil := fun hc => honc (Or.inr hc)
        obtain ⟨cm, rm, hm⟩ :=
          minZip_shape rn hrn (⟨Dir.R, cn, minKey rn, ln⟩ :: p)
        have hd1 : delDepth (node cn ln kn rn) p
            = 1 + delDepth
              (setKey (minZip rn (⟨Dir.R, cn, minKey rn, ln⟩ :: p)).1 kn)
              (minZip rn (⟨Dir.R, cn, minKey rn, ln⟩ :: p)).2 := by
          rw [delDepth.eq_def]
          simp [hln, hrn]
        have hd2 : delDepth
            (setKey (minZip rn (⟨Dir.R, cn, minKey rn, ln⟩ :: p)).1 kn)
            (minZip rn (⟨Dir.R, cn, minKey rn, ln⟩ :: p)).2 = 1 := by
          rw [hm]
          rw [show setKey (node cm nil (minKey rn) rm) kn
            = node cm nil kn rm from rfl]
          rw [delDepth.eq_def]
          simp
        rw [hd1, hd2]

theorem delFixCount_bound : ∀ (sz : Nat) (cn : Color) (ln rn : Tree)
    (kn : Int) (p : Path) (cf ci : Color) (nf : Nat),
    tsize (node cn ln kn rn) ≤ sz →
    Balanced (node cn ln kn rn) cf nf →
    CtxB p ci nf → (ci = red → cf = black) →
    lastBlack p = true → (p = [] → cf = black) →
    delFixCount (node cn ln kn rn) p
      ≤ p.length + height (node cn ln kn rn) := by
  intro sz
  induction sz with
  | zero =>
    intro cn ln rn kn p cf ci nf hsz hbal hctx hred hlast hemp
    simp only [tsize] at hsz
    omega
  | succ sz ih =>
    intro cn ln rn kn p cf ci nf hsz hbal hctx hred hlast hemp
    by_cases hlf : ln = nil ∧ rn = nil
    · obtain ⟨h1, h2⟩ := hlf
      subst h1
      subst h2
      cases p with
      | nil =>
        have hdc : delFixCount (node cn nil kn nil) [] = 0 := by
          rw [delFixCount.eq_def]
          simp
        rw [hdc]
        exact Nat.zero_le _
      | cons c0 p2 =>
        cases hbal with
        | red hl hr =>
          have hdc : delFixCount (node red nil kn nil) (c0 :: p2) = 0 := by
            rw [delFixCount.eq_def]
            simp
          rw [hdc]
          exact Nat.zero_le _
        | black hl hr =>
          cases hl
          cases hr
          have hdc : delFixCount (node black nil kn nil) (c0 :: p2)
              = fixDBCount (c0 :: p2) := by
            rw [delFixCount.eq_def]
            simp
          rw [hdc]
          have hfb := fixDBCount_bound (c0 :: p2) ci 0 hctx
          have hh : height (node black nil kn nil) = 1 := by simp [height]
          rw [hh]
          exact hfb
    · by_cases honc : ln = nil ∨ rn = nil
      · rcases honc with h1 | h1
        · subst h1
          have hrn : rn ≠ nil := by
            intro hc
            exact hlf ⟨rfl, hc⟩
          cases hbal with
          | red hl hr =>
            cases hl
            exact absurd (balanced_nil_of_black_zero hr) hrn
          | black hl hr =>
            cases hl
            cases hr with
            | nil => exact absurd rfl hrn
            | red hl2 hr2 =>
              rename_i rl2 rr2 kr2
              have h3 := balanced_nil_of_black_zero hl2
              have h4 := balanced_nil_of_black_zero hr2
              subst h3
              subst h4
              cases p with
              | nil =>
                have hdc : delFixCount
                    (node black nil kn (node red nil kr2 nil)) [] = 0 := by
                  rw [delFixCount.eq_def]
                  simp
                rw [hdc]
                exact Nat.zero_le _
              | cons c0 p2 =>
                have hdc : delFixCount
                    (node black nil kn (node red nil kr2 nil)) (c0 :: p2)
                    = 0 := by
                  rw [delFixCount.eq_def]
                  simp [rootColor]
                rw [hdc]
                exact Nat.zero_le _
        · subst h1
          have hln : ln ≠ nil := by
            intro hc
            exact hlf ⟨hc, rfl⟩
          cases hbal with
          | red hl hr =>
            cases hr
            exact absurd (balanced_nil_of_black_zero hl) hln
          | black hl hr =>
            cases hr
            cases hl with
            | nil => exact absurd rfl hln
            | red hl2 hr2 =>
              rename_i ll2 lr2 kl2
              have h3 := balanced_nil_of_black_zero hl2
              have h4 := balanced_nil_of_black_zero hr2
              subst h3
              subst h4
              cases p with
              | nil =>
                have hdc : delFixCount
                    (node black (node red nil kl2 nil) kn nil) [] = 0 := by
                  rw [delFixCount.eq_def]
                  simp
                rw [hdc]
                exact Nat.zero_le _
              | cons c0 p2 =>
                have hdc : delFixCount
                    (node black (node red nil kl2 nil) kn nil) (c0 :: p2)
                    = 0 := by
                  rw [delFixCount.eq_def]
                  simp [rootColor]
                rw [hdc]
                exact Nat.zero_le _
      · have hln : ln ≠ nil := fun hc => honc (Or.inl hc)
        have hrn : rn ≠ nil := fun hc => honc (Or.inr hc)
        have hdc : delFixCount (node cn ln kn rn) p
            = delFixCount
              (setKey (minZip rn (⟨Dir.R, cn, minKey rn, ln⟩ :: p)).1 kn)
              (minZip rn (⟨Dir.R, cn, minKey rn, ln⟩ :: p)).2 := by
          rw [delFixCount.eq_def]
          simp [hln, hrn]
        have hstep : ∃ cu ci0 nu, Balanced rn cu nu ∧
            CtxB (⟨Dir.R, cn, minKey rn, ln⟩ :: p) ci0 nu ∧
            (ci0 = red → cu = black) := by
          cases hbal with
          | red hl hr =>
            have hci : ci = black := by
              cases ci with
              | red => exact absurd (hred rfl) (by decide)
              | black => rfl
            subst hci
            exact ⟨black, red, nf, hr, CtxB.redCrumb hctx hl, fun _ => rfl⟩
          | black hl hr =>
            rename_i n0 c1 c2
            exact ⟨c2, black, n0, hr, CtxB.blackCrumb hctx hl,
              fun hc => nomatch hc⟩
        have hq0last : lastBlack (⟨Dir.R, cn, minKey rn, ln⟩ :: p) = true := by
          cases p with
          | nil =>
            have h5 := hemp rfl
            have h6 := balanced_rootColor hbal
            simp only [rootColor] at h6
            simp [lastBlack, h6.trans h5]
          | cons c2 q2 => exact hlast
        have hq0ne : (⟨Dir.R, cn, minKey rn, ln⟩ :: p) ≠ ([] : Path) := by
          intro hc
          nomatch hc
        obtain ⟨cu, ci0, nu, hbrn, hq0, hred0⟩ := hstep
        obtain ⟨cf2, cif2, nf2, hbm, hcq, hred2⟩ :=
          minZip_ctx rn (⟨Dir.R, cn, minKey rn, ln⟩ :: p) cu ci0 nu hbrn
            hq0 hred0
        obtain ⟨cm, rm, hm⟩ :=
          minZip_shape rn hrn (⟨Dir.R, cn, minKey rn, ln⟩ :: p)
        have hqlast := minZip_lastBlack rn _ hq0ne hq0last
        have hqne := minZip_ne_nil rn _ hq0ne
        have hbm2 : Balanced (node cm nil kn rm) cf2 nf2 := by
          have h7 := setKey_balanced kn hbm
          rw [hm] at h7
          simpa [setKey] using h7
        have hsz2 : tsize (node cm nil kn rm) ≤ sz := by
          have h8 := minZip_tsize rn (⟨Dir.R, cn, minKey rn, ln⟩ :: p)
          rw [hm] at h8
          simp only [tsize] at h8 hsz ⊢
          omega
        have hih := ih cm nil rm kn
          (minZip rn (⟨Dir.R, cn, minKey rn, ln⟩ :: p)).2 cf2 cif2 nf2 hsz2
          hbm2 hcq hred2 hqlast (fun hc => absurd hc hqne)
        have hsk : setKey (minZip rn (⟨Dir.R, cn, minKey rn, ln⟩ :: p)).1 kn
            = node cm nil kn rm := by
          rw [hm]
          rfl
        have hmh := minZip_height rn (⟨Dir.R, cn, minKey rn, ln⟩ :: p)
        rw [hm] at hmh
        simp only [List.length_cons] at hmh
        have hhe : height (node cm nil kn rm)
            = height (node cm nil (minKey rn) rm) := by
          simp [height]
        have hmax : height rn ≤ max (height ln) (height rn) :=
          Nat.le_max_right _ _
        have hhn : height (node cn ln kn rn)
            = max (height ln) (height rn) + 1 := by
          simp [height]
        rw [hdc, hsk]
        omega

/-- Claim C7 (counterexample to the "repair recursion only moves upward"
part): `exTree7` satisfies the red-black invariants and contains the key 5;
deleting 5 focuses the black leaf at path `exPath7`, whose sibling is red,
and the resulting chain of `fix_double_black` call sites is not strictly
upward-moving — the second call runs at a strictly longer path than the
first. -/
theorem claim7_counterexample :
    ValidRB exTree7 ∧
    findZ exTree7 5 [] = some (node black nil 5 nil, exPath7) ∧
    stepsUpward (fixDBPaths exPath7) = false := by
  refine ⟨by decide, by rfl, ?_⟩
  simp [exPath7, fixDBPaths, stepsUpward]

/-- Claim C7 (amended): delete terminates with bounded recursion.  The
successor node reached by the two-children reduction has no left child, so
that reduction happens at most once: the nesting depth of `delete_helper`
calls is at most 2 on every input.  The double-black repair recursion is
bounded even though it does not always move upward: for a valid tree and a
present key, the number of nested `fix_double_black` invocations performed
by the delete is at most the tree height. -/
theorem claim7_amended :
    (∀ (u : Tree) (q : Path), u ≠ nil → leftChild (minZip u q).1 = nil) ∧
    (∀ (t : Tree) (p : Path), delDepth t p ≤ 2) ∧
    (∀ (t : Tree) (k : Int) (n : Tree) (p : Path), ValidRB t →
      findZ t k [] = some (n, p) → delFixCount n p ≤ height t) := by
  refine ⟨?_, delDepth_le_two, ?_⟩
  · intro u q hu
    obtain ⟨cm, rm, hm⟩ := minZip_shape u hu q
    rw [hm]
    rfl
  · intro t k n p hv hf
    obtain ⟨nb, hb⟩ := validRB_balanced hv
    obtain ⟨cfx, cix, nfx, hbn, hcp, hredx, hlastx, hempx⟩ :=
      findZ_ctx t k [] n p black black nb hb CtxB.nil (fun _ => rfl) rfl
        (fun _ => rfl) hf
    obtain ⟨cn2, ln2, rn2, hn⟩ := findZ_found t k [] n p hf
    subst hn
    have hbound := delFixCount_bound (tsize (node cn2 ln2 k rn2)) cn2 ln2 rn2
      k p cfx cix nfx (le_refl _) hbn hcp hredx hlastx hempx
    have hh := findZ_height t k [] (node cn2 ln2 k rn2) p hf
    simp only [List.length_nil] at hh
    omega

theorem claim7_amended_witness :
    ((node red (node black nil 12 nil) 15 (node black nil 20 nil) : Tree)
        ≠ nil ∧
      leftChild (minZip
        (node red (node black nil 12 nil) 15 (node black nil 20 nil))
        []).1 = nil) ∧
    delDepth exTree7 [] ≤ 2 ∧
    (ValidRB exTree7 ∧
      findZ exTree7 5 [] = some (node black nil 5 nil, exPath7) ∧
      delFixCount (node black nil 5 nil) exPath7 ≤ height exTree7) :=
  ⟨⟨by decide, claim7_amended.1 _ [] (by decide)⟩,
   claim7_amended.2.1 exTree7 [],
   ⟨by decide, by rfl,
     claim7_amended.2.2 exTree7 5 (node black nil 5 nil) exPath7 (by decide)
       (by rfl)⟩⟩

end RBT
